import Mathlib

/-!
Verification development for the directory-tree comparison and merge tool
in `dircomp.py`.  The shallow embedding below models:

* the snapshot comparator `compare_directories` (snapshots are association
  lists from relative path to attribute value, mirroring Python dicts);
* the size formatter `get_size`;
* the stack-based tree walker `parse_directory` with its symlink guard,
  over a filesystem model in which a directory symlink carries the subtree
  it resolves to (never entered by the walker);
* the merge engine `merge_directories` with its overwrite / delete /
  dry-run policies, over name-keyed filesystem trees.

Machine paths are modelled as lists of path components; Python dict keys
are association-list keys with a no-duplicate hypothesis where needed.
-/

namespace Dircomp

/-! ### Snapshot comparator (`compare_directories`) -/

/-- Status of one diff entry: value differs, or missing on one side. -/
inductive DStatus where
  | modified
  | missingRight
  | missingLeft
deriving DecidableEq, Repr

/-- One classified discrepancy between the two snapshots.  `path` is the
relative path (the dict key), `left`/`right` the attribute values present
on each side. -/
structure DiffEntry (α : Type) where
  path : String
  status : DStatus
  left : Option α
  right : Option α
deriving DecidableEq, Repr

/-- Lookup in an association list, first match wins (Python dict lookup;
keys are unique in an actual dict). -/
def lookupA {α : Type} : List (String × α) → String → Option α
  | [], _ => none
  | (k, v) :: r, n => if k = n then some v else lookupA r n

/-- Row emitted for a key of the first snapshot: `Modified` when the key is
present in the second snapshot with a different value, `MissingRight` when
absent there, nothing when present with an equal value.  This is the branch
structure of the first loop of `compare_directories`. -/
def rowOf1 {α : Type} [DecidableEq α] (files2 : List (String × α)) (kv : String × α) :
    Option (DiffEntry α) :=
  match lookupA files2 kv.1 with
  | some v2 => if kv.2 ≠ v2 then some ⟨kv.1, .modified, some kv.2, some v2⟩ else none
  | none => some ⟨kv.1, .missingRight, some kv.2, none⟩

/-- Row emitted for a key of the second snapshot: `MissingLeft` when the key
is absent from the first snapshot.  This is the second loop of
`compare_directories`. -/
def rowOf2 {α : Type} (files1 : List (String × α)) (kv : String × α) :
    Option (DiffEntry α) :=
  if (lookupA files1 kv.1).isSome then none
  else some ⟨kv.1, .missingLeft, none, some kv.2⟩

/-- Fold step shared by both loops: append the emitted row (if any) and bump
the `differences` counter exactly when a row is emitted. -/
def emitStep {α : Type} (f : String × α → Option (DiffEntry α))
    (acc : List (DiffEntry α) × Nat) (kv : String × α) : List (DiffEntry α) × Nat :=
  match f kv with
  | some e => (acc.1 ++ [e], acc.2 + 1)
  | none => acc

/-- Comparator: iterate the first snapshot emitting `Modified` /
`MissingRight` rows, then the second snapshot emitting `MissingLeft` rows,
accumulating the emitted rows and the `differences` counter, exactly as the
two loops of `compare_directories` do. -/
def compare_directories {α : Type} [DecidableEq α]
    (files1 files2 : List (String × α)) : List (DiffEntry α) × Nat :=
  files2.foldl (emitStep (rowOf2 files1)) (files1.foldl (emitStep (rowOf1 files2)) ([], 0))

/-- Classification a path is expected to get, stated from the spec: present
in both with unequal values is `Modified`, present only left is
`MissingRight`, present only right is `MissingLeft`, otherwise no entry. -/
def expectedStatus {α : Type} [DecidableEq α]
    (files1 files2 : List (String × α)) (p : String) : Option DStatus :=
  match lookupA files1 p, lookupA files2 p with
  | some v1, some v2 => if v1 ≠ v2 then some .modified else none
  | some _, none => some .missingRight
  | none, some _ => some .missingLeft
  | none, none => none

/-! ### Size formatter (`get_size`) -/

/-- Formatted size value: the unit selected by `get_size` together with the
numeric magnitude (a rational standing for the rounded decimal the Python
f-string would print). -/
inductive SizeV where
  | bytes (n : Nat)
  | kb (q : ℚ)
  | mb (q : ℚ)
  | gb (q : ℚ)
deriving DecidableEq, Repr

/-- Round to an integer, ties to even (Python `round`). -/
def roundHE (q : ℚ) : ℤ :=
  if q - ⌊q⌋ < 1/2 then ⌊q⌋
  else if 1/2 < q - ⌊q⌋ then ⌊q⌋ + 1
  else if Even ⌊q⌋ then ⌊q⌋ else ⌊q⌋ + 1

/-- Round to two decimal places, ties to even (Python `round(x, 2)`). -/
def round2 (q : ℚ) : ℚ := (roundHE (q * 100) : ℚ) / 100

/-- Size formatter of `get_size`: bytes below 1024, then KB / MB / GB each
rounded to two decimals; at 1024⁴ and above the Python function falls off
the `elif` chain and returns `None`, modelled as `none`. -/
def get_size (n : Nat) : Option SizeV :=
  if n < 1024 then some (.bytes n)
  else if n < 1024 ^ 2 then some (.kb (round2 ((n : ℚ) / 1024)))
  else if n < 1024 ^ 3 then some (.mb (round2 ((n : ℚ) / 1024 ^ 2)))
  else if n < 1024 ^ 4 then some (.gb (round2 ((n : ℚ) / 1024 ^ 3)))
  else none

/-- Timestamp formatter `convert_time`: the code formats to whole-second
resolution; timestamps are modelled directly as whole seconds. -/
def convert_time (t : Nat) : Nat := t

/-! ### Tree walker (`parse_directory`, `count_files`) -/

/-- Stat record of one file, one field per comparable attribute. -/
structure FStat where
  size : Nat
  ctime : Nat
  mtime : Nat
  atime : Nat
deriving DecidableEq, Repr

/-- Attribute kind selected by the CLI command. -/
inductive Attr where
  | size
  | ctime
  | mtime
  | atime
deriving DecidableEq, Repr

/-- Attribute value stored in a snapshot: a formatted size (possibly `none`
for the unrepresented range) or a formatted timestamp. -/
inductive AVal where
  | sz (v : Option SizeV)
  | tm (t : Nat)
deriving DecidableEq, Repr

/-- Attribute extraction from a stat record, the dispatch on the
`attribute` string in `parse_directory`. -/
def statOf : Attr → FStat → AVal
  | .size, s => .sz (get_size s.size)
  | .ctime, s => .tm (convert_time s.ctime)
  | .mtime, s => .tm (convert_time s.mtime)
  | .atime, s => .tm (convert_time s.atime)

/-- Directory entry as seen by `os.scandir`.  A file's stat is `none` when
the file vanishes between enumeration and the stat call, making the stat
raise.  A `slink` is a directory that is a symbolic link: it carries the
subtree the link resolves to (for a cyclic link, an arbitrarily deep
unrolling), which the walker must never enter. -/
inductive FEntry where
  | file (name : String) (st : Option FStat)
  | dir (name : String) (children : List FEntry)
  | slink (name : String) (sub : List FEntry)

mutual
/-- Count of regular files in one entry, entering only non-symlink
directories (`count_files` recursive helper). -/
def count_file1 : FEntry → Nat
  | .file _ _ => 1
  | .dir _ cs => count_files cs
  | .slink _ _ => 0
/-- Count of regular files under a scandir listing, the recursion of
`count_files`: files count one, non-symlink directories recurse, symlink
directories are skipped. -/
def count_files : List FEntry → Nat
  | [] => 0
  | e :: r => count_file1 e + count_files r
end

mutual
/-- Number of non-symlink directories inside one entry, used as the fuel
measure of the walk loop. -/
def dirCount1 : FEntry → Nat
  | .file _ _ => 0
  | .dir _ cs => 1 + dirCountL cs
  | .slink _ _ => 0
/-- Number of non-symlink directories in a listing (fuel measure). -/
def dirCountL : List FEntry → Nat
  | [] => 0
  | e :: r => dirCount1 e + dirCountL r
end

mutual
/-- Entry with the resolved subtrees of symlink directories emptied out. -/
def eraseSlinks1 : FEntry → FEntry
  | .file n st => .file n st
  | .dir n cs => .dir n (eraseSlinksL cs)
  | .slink n _ => .slink n []
/-- Listing with the resolved subtrees of symlink directories emptied. -/
def eraseSlinksL : List FEntry → List FEntry
  | [] => []
  | e :: r => eraseSlinks1 e :: eraseSlinksL r
end

/-- Work item of the walk loop: path of a directory popped off the stack
together with its scandir listing. -/
structure WItem where
  path : List String
  entries : List FEntry

/-- Fuel measure of a work-list: one loop iteration per item plus one per
non-symlink directory nested inside it. -/
def stackFuel : List WItem → Nat
  | [] => 0
  | it :: r => 1 + dirCountL it.entries + stackFuel r

/-- Work item with the resolved subtrees of symlink directories emptied. -/
def eraseW (it : WItem) : WItem := ⟨it.path, eraseSlinksL it.entries⟩

/-- Scan of one directory listing, one pass of the inner `for entry in
os.scandir(...)` loop: a file is stat'ed and recorded (a failing stat
raises, aborting everything), a non-symlink directory is collected for the
stack, a symlink directory is skipped. -/
def scanDir (attr : Attr) (p : List String) :
    List FEntry → Except Unit (List (List String × AVal) × List WItem)
  | [] => .ok ([], [])
  | .file n st :: r =>
    match st with
    | none => .error ()
    | some s => (scanDir attr p r).map (fun x => ((p ++ [n], statOf attr s) :: x.1, x.2))
  | .dir n cs :: r => (scanDir attr p r).map (fun x => (x.1, (⟨p ++ [n], cs⟩ : WItem) :: x.2))
  | .slink _ _ :: r => scanDir attr p r

/-- Walk loop of `parse_directory`: pop a directory, scan it, push its
subdirectories (last pushed popped first, as with Python `list.pop`),
accumulate the file records and the list of directories entered.  Fuel
counts loop iterations; `none` means the fuel ran out. -/
def walkAux (attr : Attr) :
    Nat → List WItem → List (List String × AVal) → List (List String) →
    Option (Except Unit (List (List String × AVal) × List (List String)))
  | 0, _, _, _ => none
  | _ + 1, [], acc, vis => some (.ok (acc, vis))
  | fuel + 1, it :: stack, acc, vis =>
    match scanDir attr it.path it.entries with
    | .error e => some (.error e)
    | .ok (recs, dirs) => walkAux attr fuel (dirs.reverse ++ stack) (acc ++ recs) (vis ++ [it.path])

/-- Walker `parse_directory` on a root listing: run the stack loop with
fuel two more than the number of non-symlink directories (one step per
directory popped, one for the final empty-stack exit).  The result pairs
the snapshot records (relative path, attribute value) with the paths of the
directories entered. -/
def parse_directory (attr : Attr) (root : List FEntry) :
    Option (Except Unit (List (List String × AVal) × List (List String))) :=
  walkAux attr (2 + dirCountL root) [⟨[], root⟩] [] []

mutual
/-- Presence of a file whose stat raises, in the region the walker visits
(symlink directories excluded), for one entry. -/
def hasBad1 : FEntry → Bool
  | .file _ st => st.isNone
  | .dir _ cs => hasBadL cs
  | .slink _ _ => false
/-- Presence of a stat-failing file in the visited region of a listing. -/
def hasBadL : List FEntry → Bool
  | [] => false
  | e :: r => hasBad1 e || hasBadL r
end

/-- Reachability of a directory listing at a path from the root listing,
stepping only through real (non-symlink) directory entries.  A walker that
never enters symlinks only ever holds listings reachable in this sense. -/
inductive ReachDir (root : List FEntry) : List String → List FEntry → Prop where
  | base : ReachDir root [] root
  | step (p : List String) (cs : List FEntry) (n : String) (cs2 : List FEntry) :
      ReachDir root p cs → FEntry.dir n cs2 ∈ cs → ReachDir root (p ++ [n]) cs2

/-! ### Merge engine (`merge_directories`) -/

/-- Filesystem tree for the merge: a regular file with a content tag, or a
directory with a named child list (in scandir order). -/
inductive MTree where
  | file (c : Nat)
  | dir (es : List (String × MTree))

/-- Directory test on a tree node. -/
def isDirT : MTree → Bool
  | .dir _ => true
  | .file _ => false

/-- Directory test on an optional root (`source_path.is_dir()`; a missing
path is not a directory). -/
def isDirO : Option MTree → Bool
  | some (.dir _) => true
  | _ => false

/-- Regular-file test on an optional root (`target_path.exists() and not
target_path.is_dir()`). -/
def isFileO : Option MTree → Bool
  | some (.file _) => true
  | _ => false

/-- First entry with the given name in a child list. -/
def findE : List (String × MTree) → String → Option MTree
  | [], _ => none
  | (m, e) :: r, n => if m = n then some e else findE r n

/-- Child list with the first entry of the given name replaced through `f`;
unchanged when the name is absent. -/
def updateE (f : MTree → MTree) : List (String × MTree) → String → List (String × MTree)
  | [], _ => []
  | (m, e) :: r, n => if m = n then (m, f e) :: r else (m, e) :: updateE f r n

/-- Child list with the first entry of the given name removed. -/
def removeE : List (String × MTree) → String → List (String × MTree)
  | [], _ => []
  | (m, e) :: r, n => if m = n then r else (m, e) :: removeE r n

/-- Node of the tree at a path of name components (`Path.exists` and
friends resolve paths this way). -/
def lookupPath : MTree → List String → Option MTree
  | t, [] => some t
  | .file _, _ :: _ => none
  | .dir es, n :: p =>
    match findE es n with
    | some e => lookupPath e p
    | none => none

/-- Existence of a path below an optional target root (`target_item.exists()`;
a missing target root makes every path nonexistent). -/
def existsO (ot : Option MTree) (p : List String) : Bool :=
  match ot with
  | none => false
  | some t => (lookupPath t p).isSome

/-- Tree with the node at the given path removed (`rmdir` / the source side
of a move); unchanged when the path is absent, and the root itself is never
removed. -/
def removeAt : MTree → List String → MTree
  | t, [] => t
  | .file c, _ :: _ => .file c
  | .dir es, n :: p =>
    match p with
    | [] => .dir (removeE es n)
    | _ :: _ => .dir (updateE (fun e => removeAt e p) es n)

/-- Chain of nested singleton directories for the missing part of a
`mkdir(parents=True)`. -/
def mkChain : List String → MTree
  | [] => .dir []
  | n :: p => .dir [(n, mkChain p)]

/-- Tree after `target_item.mkdir(parents=True, exist_ok=True)`: missing
directories along the path are created, existing ones are kept; a regular
file anywhere on the path makes the call raise, modelled as an error. -/
def mkdirAt : MTree → List String → Except String MTree
  | .file _, _ => .error "mkdir into a file"
  | t, [] => .ok t
  | .dir es, n :: p =>
    match findE es n with
    | some e => (mkdirAt e p).map (fun e2 => .dir (updateE (fun _ => e2) es n))
    | none => .ok (.dir (es ++ [(n, mkChain p)]))

/-- Tree after moving a file of content `c` to the given path
(`shutil.move`): an existing file there is replaced, a missing final
component is created; a missing or non-directory parent, or an existing
directory at the destination, makes the call raise. -/
def insertFileAt : MTree → List String → Nat → Except String MTree
  | _, [], _ => .error "empty destination path"
  | .file _, _ :: _, _ => .error "move into a file"
  | .dir es, n :: p, c =>
    match p with
    | [] =>
      match findE es n with
      | some (.dir _) => .error "destination is a directory"
      | some (.file _) => .ok (.dir (updateE (fun _ => .file c) es n))
      | none => .ok (.dir (es ++ [(n, .file c)]))
    | _ :: _ =>
      match findE es n with
      | some e => (insertFileAt e p c).map (fun e2 => .dir (updateE (fun _ => e2) es n))
      | none => .error "missing destination parent"

mutual
/-- Entries yielded below one tree node by `source_path.rglob`, as pairs of
relative path and directory flag, depth first with every directory yielded
before its contents. -/
def rglobT (p : List String) : MTree → List (List String × Bool)
  | .file _ => []
  | .dir es => rglobL p es
/-- Entries `rglob` yields for a child list under path `p`. -/
def rglobL (p : List String) : List (String × MTree) → List (List String × Bool)
  | [] => []
  | (n, e) :: r => (p ++ [n], isDirT e) :: (rglobT (p ++ [n]) e ++ rglobL p r)
end

mutual
/-- Well-formedness of a tree: every directory lists distinct names (a real
filesystem directory cannot hold two entries of the same name). -/
def wfT : MTree → Bool
  | .file _ => true
  | .dir es => wfL es
/-- Well-formedness of a child list: head name absent from the tail,
recursively well-formed entries. -/
def wfL : List (String × MTree) → Bool
  | [] => true
  | (n, e) :: r => (findE r n).isNone && wfT e && wfL r
end

/-- Boolean path-prefix test: `isPfxOf q p` holds when the component list
`q` is an initial segment of `p`. -/
def isPfxOf : List String → List String → Bool
  | [], _ => true
  | _ :: _, [] => false
  | a :: q, b :: p => a = b && isPfxOf q p

/-- Merge action, in the order planned/applied.  Relative paths are against
the source root (for moves, the same relative path names the target
destination).  The only skip reason in the code is an existing target, so
`skipFile` carries none. -/
inductive MAct where
  | createDir (rel : List String)
  | moveFile (rel : List String) (overwrite : Bool)
  | skipFile (rel : List String)
  | deleteEmptyDir (rel : List String)
deriving DecidableEq, Repr

/-- State threaded through a merge: the live source and target trees (the
target is `none` while it does not exist) and the log of actions decided so
far.  Under dry run the trees never change. -/
structure MState where
  src : MTree
  tgt : Option MTree
  acts : List MAct

/-- Decision table of the spec for one entry: directory plus missing target
creates it, directory plus existing target does nothing, file plus missing
target moves, file plus existing target moves when overwriting and skips
otherwise. -/
def decisionTable (entryIsDir targetExists overwrite : Bool) (rel : List String) :
    List MAct :=
  if entryIsDir then
    if targetExists then [] else [.createDir rel]
  else
    if !targetExists then [.moveFile rel false]
    else if overwrite then [.moveFile rel true]
    else [.skipFile rel]

/-- Directory-creation leaf of the merge loop: record the `createDir`
action, and under a non-dry run apply `target_item.mkdir(parents=True,
exist_ok=True)` to the target tree. -/
def applyCreate (dry : Bool) (st : MState) (rel : List String) : Except String MState :=
  if dry then .ok ⟨st.src, st.tgt, st.acts ++ [.createDir rel]⟩
  else
    match st.tgt with
    | some t => (mkdirAt t rel).map
        (fun t2 => ⟨st.src, some t2, st.acts ++ [.createDir rel]⟩)
    | none => .error "target root missing"

/-- File-move leaf of the merge loop: record the `moveFile` action (with
the overwrite bit set exactly when the target path existed), and under a
non-dry run apply `shutil.move`, taking the file out of the source tree
and into the target tree. -/
def applyMove (dry : Bool) (st : MState) (rel : List String) (tex : Bool) :
    Except String MState :=
  if dry then .ok ⟨st.src, st.tgt, st.acts ++ [.moveFile rel tex]⟩
  else
    match st.tgt, lookupPath st.src rel with
    | some t, some (.file c) =>
      (insertFileAt t rel c).map
        (fun t2 => ⟨removeAt st.src rel, some t2, st.acts ++ [.moveFile rel tex]⟩)
    | _, _ => .error "source file missing"

/-- Processing of one `rglob` item by the merge loop: decide from the entry
kind, target existence and the overwrite flag; record the action; under a
non-dry run also apply it.  Failures of the applying filesystem calls
surface as errors, as the uncaught Python exceptions would. -/
def moveStep (ow dry : Bool) (st : MState) (it : List String × Bool) :
    Except String MState :=
  if it.2 then
    if existsO st.tgt it.1 then .ok st
    else applyCreate dry st it.1
  else
    let tex := existsO st.tgt it.1
    if !tex || ow then applyMove dry st it.1 tex
    else .ok ⟨st.src, st.tgt, st.acts ++ [.skipFile it.1]⟩

/-- Emptiness test `sub_dir.is_dir() and not any(sub_dir.iterdir())` on the
node at a path of the live tree. -/
def emptyDirAt (t : MTree) (p : List String) : Bool :=
  match lookupPath t p with
  | some (.dir es) => es.isEmpty
  | _ => false

/-- Stable insertion by nonincreasing relative-path depth, placing the new
item before the first retained item of depth not above it. -/
def insDesc (a : List String × Bool) :
    List (List String × Bool) → List (List String × Bool)
  | [] => [a]
  | b :: r => if b.1.length ≤ a.1.length then a :: b :: r else b :: insDesc a r

/-- Stable sort by nonincreasing depth, the `sorted(..., key=lambda x:
-str(x.relative_to(source_path)).count(os.sep))` of the delete pass. -/
def sortDesc : List (List String × Bool) → List (List String × Bool)
  | [] => []
  | a :: r => insDesc a (sortDesc r)

/-- One step of the delete pass at an enumerated path: a directory that is
empty on the live source is logged as deleted and, under a non-dry run,
removed. -/
def delStep (dry : Bool) (st : MState) (it : List String × Bool) : MState :=
  if emptyDirAt st.src it.1 then
    ⟨if dry then st.src else removeAt st.src it.1, st.tgt, st.acts ++ [.deleteEmptyDir it.1]⟩
  else st

/-- Delete pass of the merge: re-enumerate the live source, sort deepest
first, and fold the per-path step over the sorted list. -/
def deletePass (dry : Bool) (st : MState) : MState :=
  (sortDesc (rglobT [] st.src)).foldl (delStep dry) st

/-- Merge body after validation: fold the per-item step over the `rglob`
enumeration of the initial source, then run the delete pass when the delete
flag is set. -/
def mergeMain (ow del dry : Bool) (s : MTree) (t : Option MTree) (acts0 : List MAct) :
    Except String MState :=
  ((rglobT [] s).foldlM (moveStep ow dry) ⟨s, t, acts0⟩).map
    (fun st => if del then deletePass dry st else st)

/-- Merge engine `merge_directories`: validate that the source is a
directory and that an existing target is one (raising before touching
anything otherwise); a missing target root is planned first (and created,
unless dry); then run the move loop and the optional delete pass. -/
def merge_directories (src tgt : Option MTree) (ow del dry : Bool) :
    Except String MState :=
  match src with
  | some (.dir ses) =>
    match tgt with
    | some (.file _) => .error "Target exists and is not a directory"
    | some (.dir tes) => mergeMain ow del dry (.dir ses) (some (.dir tes)) []
    | none =>
      mergeMain ow del dry (.dir ses) (if dry then none else some (.dir [])) [.createDir []]
  | _ => .error "Source must be a directory"

mutual
/-- Presence of a regular file anywhere in a subtree (a directory with none
ends up empty after the delete pass). -/
def hasFileBelow : MTree → Bool
  | .file _ => true
  | .dir es => hasFileBelowL es
/-- Presence of a regular file below some entry of a child list. -/
def hasFileBelowL : List (String × MTree) → Bool
  | [] => false
  | (_, e) :: r => hasFileBelow e || hasFileBelowL r
end

/-- Empty-directory test on a node value. -/
def isEmptyDirT : MTree → Bool
  | .dir [] => true
  | _ => false

/-- Source-tree effect of one delete-pass step: remove the node at the path
when it is an empty directory on the live tree, else leave the tree
alone. -/
def delSrc (t : MTree) (p : List String) : MTree :=
  if emptyDirAt t p then removeAt t p else t

/-- Dead path: a strict descendant that is a directory whose subtree holds
no regular file — exactly the directories the delete pass is meant to end
up removing. -/
def deadAt (t : MTree) (p : List String) : Bool :=
  (!p.isEmpty) &&
    (match lookupPath t p with
     | some (MTree.dir es) => !hasFileBelow (.dir es)
     | _ => false)

/-- Paths of a list that descend into the child of the given name, with
that first component stripped. -/
def projL (n : String) (L : List (List String)) : List (List String) :=
  L.filterMap (fun p =>
    match p with
    | m :: q => if m = n then some q else none
    | [] => none)

mutual
/-- Node count of a tree (induction measure). -/
def sizeT : MTree → Nat
  | .file _ => 1
  | .dir es => 1 + sizeL es
/-- Node count of a child list (induction measure). -/
def sizeL : List (String × MTree) → Nat
  | [] => 0
  | (_, e) :: r => sizeT e + sizeL r
end

mutual
/-- Tree with every subdirectory that contains no file (hereditarily)
removed: the intended net effect of the deepest-first delete pass. -/
def pruneT : MTree → MTree
  | .file c => .file c
  | .dir es => .dir (pruneL es)
/-- Child list after pruning: files are kept, directory children are pruned
recursively and dropped when the pruned form is empty. -/
def pruneL : List (String × MTree) → List (String × MTree)
  | [] => []
  | (n, e) :: r =>
    match e with
    | .file c => (n, .file c) :: pruneL r
    | .dir cs => if isEmptyDirT (pruneT (.dir cs)) then pruneL r
                 else (n, pruneT (.dir cs)) :: pruneL r
end

/-! ### Lemmas: comparator -/

theorem foldl_emitStep {α : Type} (f : String × α → Option (DiffEntry α))
    (l : List (String × α)) (acc : List (DiffEntry α) × Nat) :
    l.foldl (emitStep f) acc = (acc.1 ++ l.filterMap f, acc.2 + (l.filterMap f).length) := by
  induction l generalizing acc with
  | nil => simp
  | cons kv r ih =>
    cases h : f kv with
    | none => simp [List.foldl_cons, emitStep, h, ih]
    | some e => simp [List.foldl_cons, emitStep, h, ih, Nat.add_assoc, Nat.add_comm 1]

theorem compare_directories_eq {α : Type} [DecidableEq α]
    (fs1 fs2 : List (String × α)) :
    compare_directories fs1 fs2 =
      (fs1.filterMap (rowOf1 fs2) ++ fs2.filterMap (rowOf2 fs1),
       (fs1.filterMap (rowOf1 fs2)).length + (fs2.filterMap (rowOf2 fs1)).length) := by
  unfold compare_directories
  rw [foldl_emitStep, foldl_emitStep]
  simp

theorem length_filterMap_eq_countP {α β : Type} (f : α → Option β) (l : List α) :
    (l.filterMap f).length = l.countP (fun a => (f a).isSome) := by
  induction l with
  | nil => rfl
  | cons a r ih => cases h : f a <;> simp [List.filterMap_cons, h, List.countP_cons, ih]

theorem lookupA_isSome_iff {α : Type} (l : List (String × α)) (p : String) :
    (lookupA l p).isSome ↔ p ∈ l.map Prod.fst := by
  induction l with
  | nil => simp [lookupA]
  | cons kv r ih =>
    by_cases h : kv.1 = p
    · obtain ⟨k, v⟩ := kv
      simp_all [lookupA]
    · obtain ⟨k, v⟩ := kv
      simp only at h
      simp [lookupA, h, ih, Ne.symm h]

theorem lookupA_of_mem_nodup {α : Type} (l : List (String × α))
    (h : (l.map Prod.fst).Nodup) (k : String) (v : α) (hm : (k, v) ∈ l) :
    lookupA l k = some v := by
  induction l with
  | nil => cases hm
  | cons kv r ih =>
    obtain ⟨k0, v0⟩ := kv
    simp only [List.map_cons, List.nodup_cons] at h
    rcases List.mem_cons.mp hm with heq | hm2
    · obtain ⟨h1, h2⟩ := Prod.mk.injEq .. ▸ heq
      simp [lookupA, h1.symm, h2]
    · have hk : k0 ≠ k := by
        intro he
        exact h.1 (he ▸ (List.mem_map.mpr ⟨(k, v), hm2, rfl⟩))
      simp [lookupA, hk, ih h.2 hm2]

theorem countP_key_zero {α : Type} (l : List (String × α)) (p : String)
    (g : String × α → Bool) (h : p ∉ l.map Prod.fst) :
    l.countP (fun kv => decide (kv.1 = p) && g kv) = 0 := by
  induction l with
  | nil => rfl
  | cons kv r ih =>
    simp only [List.map_cons, List.mem_cons] at h
    push_neg at h
    simp [List.countP_cons, Ne.symm h.1, ih h.2]

theorem countP_key_nodup {α : Type} (l : List (String × α)) (p : String)
    (g : String × α → Bool) (h : (l.map Prod.fst).Nodup) :
    l.countP (fun kv => decide (kv.1 = p) && g kv) =
      (match lookupA l p with
       | some v => if g (p, v) then 1 else 0
       | none => 0) := by
  induction l with
  | nil => rfl
  | cons kv r ih =>
    obtain ⟨k, v⟩ := kv
    simp only [List.map_cons, List.nodup_cons] at h
    by_cases hk : k = p
    · subst hk
      rw [List.countP_cons, countP_key_zero r k g h.1]
      simp [lookupA]
    · rw [List.countP_cons, ih h.2]
      simp [lookupA, hk, Ne.symm hk]

theorem rowOf1_path {α : Type} [DecidableEq α] (fs2 : List (String × α))
    (kv : String × α) (e : DiffEntry α) (h : rowOf1 fs2 kv = some e) : e.path = kv.1 := by
  unfold rowOf1 at h
  rcases hl : lookupA fs2 kv.1 with _ | v2 <;> rw [hl] at h
  · cases h; rfl
  · by_cases hv : kv.2 ≠ v2 <;> simp [hv] at h
    rw [← h]

theorem rowOf2_path {α : Type} (fs1 : List (String × α))
    (kv : String × α) (e : DiffEntry α) (h : rowOf2 fs1 kv = some e) : e.path = kv.1 := by
  unfold rowOf2 at h
  by_cases hl : (lookupA fs1 kv.1).isSome <;> simp [hl] at h
  rw [← h]

theorem countP_filterMap_path {α : Type} (f : String × α → Option (DiffEntry α))
    (l : List (String × α)) (p : String)
    (hf : ∀ kv e, f kv = some e → e.path = kv.1) :
    (l.filterMap f).countP (fun e => decide (e.path = p)) =
      l.countP (fun kv => decide (kv.1 = p) && (f kv).isSome) := by
  induction l with
  | nil => rfl
  | cons kv r ih =>
    cases h : f kv with
    | none => simp [List.filterMap_cons, h, List.countP_cons, ih]
    | some e =>
      have hp := hf kv e h
      simp [List.filterMap_cons, h, List.countP_cons, ih, hp]

/-- C3. The comparator's output partitions the relevant paths: a path
present in either snapshot appears in exactly one `DiffEntry` — `Modified`
when present in both with unequal values, `MissingRight` when present only
left, `MissingLeft` when present only right — a common path with equal
values produces no entry, and every emitted entry for a path carries
exactly the status of this classification (so no path can produce both a
`MissingLeft` and a `MissingRight` entry). -/
theorem countP_map_fst {α : Type} (l : List (String × α)) (g : String → Bool) :
    (l.map Prod.fst).countP g = l.countP (fun kv => g kv.1) := by
  induction l with
  | nil => rfl
  | cons kv r ih => simp [List.countP_cons, ih]

theorem compare_partition {α : Type} [DecidableEq α]
    (fs1 fs2 : List (String × α))
    (h1 : (fs1.map Prod.fst).Nodup) (h2 : (fs2.map Prod.fst).Nodup) (p : String) :
    (compare_directories fs1 fs2).1.countP (fun e => decide (e.path = p)) =
      (if (expectedStatus fs1 fs2 p).isSome then 1 else 0)
    ∧ ∀ e ∈ (compare_directories fs1 fs2).1, e.path = p →
        some e.status = expectedStatus fs1 fs2 p := by
  rw [compare_directories_eq]
  constructor
  · rw [List.countP_append ..]
    rw [countP_filterMap_path (rowOf1 fs2) fs1 p (rowOf1_path fs2)]
    rw [countP_filterMap_path (rowOf2 fs1) fs2 p (rowOf2_path fs1)]
    rw [countP_key_nodup fs1 p _ h1, countP_key_nodup fs2 p _ h2]
    rcases hl1 : lookupA fs1 p with _ | v1 <;> rcases hl2 : lookupA fs2 p with _ | v2
    · simp [expectedStatus, hl1, hl2]
    · simp [expectedStatus, rowOf2, hl1, hl2]
    · simp [expectedStatus, rowOf1, hl1, hl2]
    · by_cases hv : v1 = v2
      · simp [expectedStatus, rowOf1, rowOf2, hl1, hl2, hv]
      · simp [expectedStatus, rowOf1, rowOf2, hl1, hl2, hv]
  · intro e he hp
    rcases List.mem_append.mp he with hA | hB
    · obtain ⟨kv, hkv, hrow⟩ := List.mem_filterMap.mp hA
      have hpk : e.path = kv.1 := rowOf1_path fs2 kv e hrow
      have hkp : kv.1 = p := by rw [← hpk, hp]
      have hk1 : lookupA fs1 p = some kv.2 := by
        rw [← hkp]
        exact lookupA_of_mem_nodup fs1 h1 kv.1 kv.2 hkv
      unfold rowOf1 at hrow
      rw [hkp] at hrow
      unfold expectedStatus
      rw [hk1]
      rcases hl2 : lookupA fs2 p with _ | v2 <;> rw [hl2] at hrow
      · cases hrow
        rfl
      · by_cases hv : kv.2 = v2
        · simp [hv] at hrow
        · have hee : (⟨p, .modified, some kv.2, some v2⟩ : DiffEntry α) = e := by
            simpa [hv] using hrow
          simp [hv, ← hee]
    · obtain ⟨kv, hkv, hrow⟩ := List.mem_filterMap.mp hB
      have hpk : e.path = kv.1 := rowOf2_path fs1 kv e hrow
      have hkp : kv.1 = p := by rw [← hpk, hp]
      have hk2 : lookupA fs2 p = some kv.2 := by
        rw [← hkp]
        exact lookupA_of_mem_nodup fs2 h2 kv.1 kv.2 hkv
      unfold rowOf2 at hrow
      rw [hkp] at hrow
      unfold expectedStatus
      rw [hk2]
      rcases hl1 : lookupA fs1 p with _ | v1 <;> rw [hl1] at hrow
      · have hee : (⟨p, .missingLeft, none, some kv.2⟩ : DiffEntry α) = e := by
          simpa using hrow
        simp [← hee]
      · simp at hrow

/-- C3 witness: the theorem applied to concrete snapshots. -/
theorem compare_partition_witness :
    (compare_directories [("a", 1), ("b", 2), ("c", 3)] [("a", 1), ("b", 9), ("d", 4)]).1.countP
        (fun e => decide (e.path = "b")) =
      (if (expectedStatus [("a", 1), ("b", 2), ("c", 3)] [("a", 1), ("b", 9), ("d", 4)] "b").isSome
        then 1 else 0) :=
  (compare_partition [("a", 1), ("b", 2), ("c", 3)] [("a", 1), ("b", 9), ("d", 4)]
    (by decide) (by decide) "b").1

/-- C4. The difference count of a comparison is the size of the symmetric
difference of the key sets plus the number of common keys with unequal
values; two snapshots with identical keys and values compare to an empty
report with count 0. -/
theorem compare_count {α : Type} [DecidableEq α]
    (fs1 fs2 : List (String × α))
    (h1 : (fs1.map Prod.fst).Nodup) (h2 : (fs2.map Prod.fst).Nodup) :
    ((compare_directories fs1 fs2).2 =
      ((fs1.map Prod.fst).filter (fun k => (lookupA fs2 k).isNone)).length
      + ((fs2.map Prod.fst).filter (fun k => (lookupA fs1 k).isNone)).length
      + (fs1.filter (fun kv =>
          match lookupA fs2 kv.1 with
          | some v2 => decide (kv.2 ≠ v2)
          | none => false)).length)
    ∧ ((∀ k, lookupA fs1 k = lookupA fs2 k) → compare_directories fs1 fs2 = ([], 0)) := by
  constructor
  · rw [compare_directories_eq]
    simp only
    rw [length_filterMap_eq_countP, length_filterMap_eq_countP]
    rw [← List.countP_eq_length_filter, ← List.countP_eq_length_filter,
      ← List.countP_eq_length_filter]
    rw [countP_map_fst, countP_map_fst]
    have e1 : ∀ l : List (String × α), l.countP (fun kv => (rowOf1 fs2 kv).isSome) =
        l.countP (fun kv => (lookupA fs2 kv.1).isNone)
        + l.countP (fun kv =>
            match lookupA fs2 kv.1 with
            | some v2 => decide (kv.2 ≠ v2)
            | none => false) := by
      intro l
      induction l with
      | nil => rfl
      | cons kv r ih =>
        rw [List.countP_cons .., List.countP_cons .., List.countP_cons .., ih]
        rcases hl : lookupA fs2 kv.1 with _ | v2
        · simp [rowOf1, hl]
          omega
        · by_cases hv : kv.2 = v2
          · simp [rowOf1, hl, hv]
          · simp [rowOf1, hl, hv]
            omega
    have e2 : ∀ l : List (String × α), l.countP (fun kv => (rowOf2 fs1 kv).isSome) =
        l.countP (fun kv => (lookupA fs1 kv.1).isNone) := by
      intro l
      induction l with
      | nil => rfl
      | cons kv r ih =>
        rw [List.countP_cons .., List.countP_cons .., ih]
        rcases hl : lookupA fs1 kv.1 with _ | v1 <;> simp [rowOf2, hl]
    rw [e1, e2]
    omega
  · intro hsame
    rw [compare_directories_eq]
    have hA : fs1.filterMap (rowOf1 fs2) = [] := by
      rw [List.filterMap_eq_nil_iff]
      intro kv hkv
      have hk : lookupA fs2 kv.1 = some kv.2 := by
        rw [← hsame kv.1]
        exact lookupA_of_mem_nodup fs1 h1 kv.1 kv.2 hkv
      unfold rowOf1
      rw [hk]
      simp
    have hB : fs2.filterMap (rowOf2 fs1) = [] := by
      rw [List.filterMap_eq_nil_iff]
      intro kv hkv
      have hk : lookupA fs1 kv.1 = some kv.2 := by
        rw [hsame kv.1]
        exact lookupA_of_mem_nodup fs2 h2 kv.1 kv.2 hkv
      unfold rowOf2
      rw [hk]
      simp
    rw [hA, hB]
    rfl

/-- C4 witness: the theorem applied to concrete snapshots, both parts. -/
theorem compare_count_witness :
    ((compare_directories [("a", 1), ("b", 2), ("c", 3)] [("a", 1), ("b", 9), ("d", 4)]).2 = 3)
    ∧ compare_directories [("a", 5), ("b", 6)] [("a", 5), ("b", 6)] = ([], 0) :=
  ⟨by
    rw [(compare_count [("a", 1), ("b", 2), ("c", 3)] [("a", 1), ("b", 9), ("d", 4)]
      (by decide) (by decide)).1]
    decide,
   (compare_count [("a", 5), ("b", 6)] [("a", 5), ("b", 6)] (by decide) (by decide)).2
     (fun _ => rfl)⟩

/-! ### Lemmas: size formatter -/

/-- C8. Size formatting thresholds: bytes below 1024, KB below 1024²,
MB below 1024³, GB below 1024⁴, each rounded to two decimals; from 1024⁴
on, extraction still returns (no crash) with the explicit `none` marker —
the Python function falls off its `elif` chain and yields `None` — rather
than wrapping into some smaller unit. -/
theorem get_size_ranges (n : Nat) :
    (n < 1024 → get_size n = some (.bytes n))
    ∧ (1024 ≤ n → n < 1024 ^ 2 → get_size n = some (.kb (round2 ((n : ℚ) / 1024))))
    ∧ (1024 ^ 2 ≤ n → n < 1024 ^ 3 → get_size n = some (.mb (round2 ((n : ℚ) / 1024 ^ 2))))
    ∧ (1024 ^ 3 ≤ n → n < 1024 ^ 4 → get_size n = some (.gb (round2 ((n : ℚ) / 1024 ^ 3))))
    ∧ (1024 ^ 4 ≤ n → get_size n = none) := by
  unfold get_size
  refine ⟨fun h => ?_, fun h h2 => ?_, fun h h2 => ?_, fun h h2 => ?_, fun h => ?_⟩
  · rw [if_pos h]
  · rw [if_neg (by omega), if_pos h2]
  · rw [if_neg (by omega), if_neg (by omega), if_pos h2]
  · rw [if_neg (by omega), if_neg (by omega), if_neg (by omega), if_pos h2]
  · rw [if_neg (by omega), if_neg (by omega), if_neg (by omega), if_neg (by omega)]

/-- C8 witness: one input per size band, including the unrepresented band. -/
theorem get_size_ranges_witness :
    get_size 10 = some (.bytes 10)
    ∧ get_size 2048 = some (.kb 2)
    ∧ get_size (3 * 1024 ^ 2) = some (.mb 3)
    ∧ get_size (5 * 1024 ^ 3) = some (.gb 5)
    ∧ get_size (1024 ^ 4) = none := by
  refine ⟨(get_size_ranges 10).1 (by norm_num), ?_, ?_, ?_,
    (get_size_ranges (1024 ^ 4)).2.2.2.2 (by norm_num)⟩
  · rw [(get_size_ranges 2048).2.1 (by norm_num) (by norm_num)]
    norm_num [round2, roundHE]
  · rw [(get_size_ranges (3 * 1024 ^ 2)).2.2.1 (by norm_num) (by norm_num)]
    norm_num [round2, roundHE]
  · rw [(get_size_ranges (5 * 1024 ^ 3)).2.2.2.1 (by norm_num) (by norm_num)]
    norm_num [round2, roundHE]

/-! ### Lemmas: merge decision table -/

theorem exceptMap_ok {ε α β : Type} (f : α → β) (x : Except ε α) (b : β)
    (h : x.map f = .ok b) : ∃ a, x = .ok a ∧ b = f a := by
  cases x with
  | error e => simp [Except.map] at h
  | ok a => exact ⟨a, rfl, by simpa [Except.map] using h.symm⟩

theorem applyCreate_ok (dry : Bool) (st : MState) (rel : List String) (st2 : MState)
    (h : applyCreate dry st rel = .ok st2) :
    st2.src = st.src ∧ st2.acts = st.acts ++ [.createDir rel] := by
  unfold applyCreate at h
  cases dry with
  | true =>
    simp only [if_true] at h
    cases h
    exact ⟨rfl, rfl⟩
  | false =>
    simp only [Bool.false_eq_true, if_false] at h
    rcases htg : st.tgt with _ | t <;> rw [htg] at h
    · cases h
    · obtain ⟨t2, _, hst⟩ := exceptMap_ok _ _ _ h
      rw [hst]
      exact ⟨rfl, rfl⟩

theorem applyMove_ok (dry : Bool) (st : MState) (rel : List String) (tex : Bool)
    (st2 : MState) (h : applyMove dry st rel tex = .ok st2) :
    st2.acts = st.acts ++ [.moveFile rel tex] := by
  unfold applyMove at h
  cases dry with
  | true =>
    simp only [if_true] at h
    cases h
    rfl
  | false =>
    simp only [Bool.false_eq_true, if_false] at h
    rcases htg : st.tgt with _ | t <;> rw [htg] at h
    · cases h
    · rcases hlk : lookupPath st.src rel with _ | e <;> rw [hlk] at h
      · cases h
      · rcases e with c | es
        · obtain ⟨t2, _, hst⟩ := exceptMap_ok _ _ _ h
          rw [hst]
        · cases h

theorem moveStep_acts_eq (ow dry : Bool) (st : MState) (it : List String × Bool)
    (st2 : MState) (h : moveStep ow dry st it = .ok st2) :
    st2.acts = st.acts ++ decisionTable it.2 (existsO st.tgt it.1) ow it.1 := by
  unfold moveStep at h
  unfold decisionTable
  cases hd : it.2 <;> rw [hd] at h <;> dsimp only at h <;>
    cases hex : existsO st.tgt it.1 <;> rw [hex] at h <;>
    simp only [Bool.false_eq_true, Bool.true_eq_false, if_true, if_false,
      Bool.not_true, Bool.not_false, Bool.true_or, Bool.false_or,
      eq_self_iff_true] at h ⊢
  · exact applyMove_ok dry st it.1 false st2 h
  · cases ow with
    | true =>
      simp only [if_true] at h ⊢
      exact applyMove_ok dry st it.1 true st2 h
    | false =>
      simp only [Bool.false_eq_true, if_false] at h ⊢
      cases h
      rfl
  · exact (applyCreate_ok dry st it.1 st2 h).2
  · cases h
    simp

/-- C1. Decision table of the merge loop: for every state and enumerated
entry, a successful step appends to the action log exactly the action the
decision table prescribes from the entry kind, the existence of the target
path and the overwrite flag — directory and missing target: create it;
directory and existing target: nothing; file and missing target: move
without overwrite; file and existing target: move with overwrite when the
flag is set, otherwise skip. -/
theorem moveStep_decision_table (ow dry : Bool) (st : MState) (it : List String × Bool)
    (st2 : MState) (h : moveStep ow dry st it = .ok st2) :
    st2.acts = st.acts ++ decisionTable it.2 (existsO st.tgt it.1) ow it.1 :=
  moveStep_acts_eq ow dry st it st2 h

/-- C1 witness: a file entry whose target exists, with the overwrite flag
set, yields exactly the overwriting move. -/
theorem moveStep_decision_table_witness :
    (⟨.dir [("x", .file 5)], some (.dir [("x", .file 9)]),
        [MAct.moveFile ["x"] true]⟩ : MState).acts =
      (⟨.dir [("x", .file 5)], some (.dir [("x", .file 9)]), []⟩ : MState).acts ++
        decisionTable false
          (existsO (⟨.dir [("x", .file 5)], some (.dir [("x", .file 9)]), []⟩ : MState).tgt ["x"])
          true ["x"] :=
  moveStep_decision_table true true
    ⟨.dir [("x", .file 5)], some (.dir [("x", .file 9)]), []⟩ (["x"], false) _ rfl

/-! ### Lemmas: rglob paths, fold effects, validation -/

mutual
theorem rglobT_extends (p : List String) (t : MTree) :
    ∀ x ∈ rglobT p t, ∃ r, x.1 = p ++ r ∧ r ≠ [] := by
  cases t with
  | file c =>
    intro x hx
    simp [rglobT] at hx
  | dir es =>
    intro x hx
    exact rglobL_extends p es x (by rw [rglobT] at hx; exact hx)
theorem rglobL_extends (p : List String) (es : List (String × MTree)) :
    ∀ x ∈ rglobL p es, ∃ r, x.1 = p ++ r ∧ r ≠ [] := by
  cases es with
  | nil =>
    intro x hx
    simp [rglobL] at hx
  | cons ne rest =>
    obtain ⟨n, e⟩ := ne
    intro x hx
    rw [rglobL] at hx
    rcases List.mem_cons.mp hx with h1 | h2
    · exact ⟨[n], by rw [h1], by simp⟩
    · rcases List.mem_append.mp h2 with h3 | h4
      · obtain ⟨r, hr, hne⟩ := rglobT_extends (p ++ [n]) e x h3
        exact ⟨[n] ++ r, by rw [hr, List.append_assoc], by simp⟩
      · exact rglobL_extends p rest x h4
end

theorem rglob_root_ne_nil (t : MTree) (x : List String × Bool) (hx : x ∈ rglobT [] t) :
    x.1 ≠ [] := by
  obtain ⟨r, hr, hne⟩ := rglobT_extends [] t x hx
  rw [hr]
  simpa using hne

theorem isDirT_removeAt (t : MTree) (p : List String) :
    isDirT (removeAt t p) = isDirT t := by
  cases t with
  | file c => cases p <;> rfl
  | dir es =>
    cases p with
    | nil => rfl
    | cons n q => cases q <;> rfl

theorem foldlM_except_cons {σ α : Type} (f : σ → α → Except String σ) (a : α)
    (l : List α) (b c : σ) (h : (a :: l).foldlM f b = .ok c) :
    ∃ b2, f b a = .ok b2 ∧ l.foldlM f b2 = .ok c := by
  rw [List.foldlM_cons] at h
  cases hf : f b a with
  | error e =>
    rw [hf] at h
    simp [Bind.bind, Except.bind] at h
  | ok b2 =>
    rw [hf] at h
    exact ⟨b2, rfl, by simpa [Bind.bind, Except.bind] using h⟩

theorem applyMove_src (dry : Bool) (st : MState) (rel : List String) (tex : Bool)
    (st2 : MState) (h : applyMove dry st rel tex = .ok st2) :
    isDirT st2.src = isDirT st.src := by
  unfold applyMove at h
  cases dry with
  | true =>
    simp only [if_true] at h
    cases h
    rfl
  | false =>
    simp only [Bool.false_eq_true, if_false] at h
    rcases htg : st.tgt with _ | t <;> rw [htg] at h
    · cases h
    · rcases hlk : lookupPath st.src rel with _ | e <;> rw [hlk] at h
      · cases h
      · rcases e with c | es
        · obtain ⟨t2, _, hst⟩ := exceptMap_ok _ _ _ h
          rw [hst]
          exact isDirT_removeAt st.src rel
        · cases h

theorem moveStep_src (ow dry : Bool) (st : MState) (it : List String × Bool)
    (st2 : MState) (h : moveStep ow dry st it = .ok st2) :
    isDirT st2.src = isDirT st.src := by
  unfold moveStep at h
  cases hd : it.2 <;> rw [hd] at h <;> dsimp only at h <;>
    cases hex : existsO st.tgt it.1 <;> rw [hex] at h <;>
    simp only [Bool.false_eq_true, Bool.true_eq_false, if_true, if_false,
      Bool.not_true, Bool.not_false, Bool.true_or, Bool.false_or] at h
  · exact applyMove_src dry st it.1 false st2 h
  · cases ow with
    | true =>
      simp only [if_true] at h
      exact applyMove_src dry st it.1 true st2 h
    | false =>
      simp only [Bool.false_eq_true, if_false] at h
      cases h
      rfl
  · rw [(applyCreate_ok dry st it.1 st2 h).1]
  · cases h
    rfl

theorem decisionTable_no_delete (d tex ow : Bool) (rel p : List String) :
    MAct.deleteEmptyDir p ∉ decisionTable d tex ow rel := by
  unfold decisionTable
  cases d <;> cases tex <;> cases ow <;> simp

theorem foldlM_moveStep_spec (ow dry : Bool) :
    ∀ (items : List (List String × Bool)) (st r : MState),
    items.foldlM (moveStep ow dry) st = .ok r →
    isDirT r.src = isDirT st.src ∧
    ∃ a, r.acts = st.acts ++ a ∧ ∀ p, MAct.deleteEmptyDir p ∉ a := by
  intro items
  induction items with
  | nil =>
    intro st r h
    simp [List.foldlM_nil, pure, Except.pure] at h
    rw [← h]
    exact ⟨rfl, [], by simp, by simp⟩
  | cons it rest ih =>
    intro st r h
    obtain ⟨st1, hstep, hrest⟩ := foldlM_except_cons _ _ _ _ _ h
    obtain ⟨hdir, a, hacts, hnd⟩ := ih st1 r hrest
    refine ⟨by rw [hdir, moveStep_src ow dry st it st1 hstep], ?_⟩
    refine ⟨decisionTable it.2 (existsO st.tgt it.1) ow it.1 ++ a, ?_, ?_⟩
    · rw [hacts, moveStep_acts_eq ow dry st it st1 hstep, List.append_assoc]
    · intro p hp
      rcases List.mem_append.mp hp with h1 | h2
      · exact decisionTable_no_delete it.2 (existsO st.tgt it.1) ow it.1 p h1
      · exact hnd p h2

theorem foldl_delStep_spec (dry : Bool) :
    ∀ (L : List (List String × Bool)) (st : MState),
    isDirT ((L.foldl (delStep dry) st).src) = isDirT st.src ∧
    (L.foldl (delStep dry) st).tgt = st.tgt ∧
    ∃ a, (L.foldl (delStep dry) st).acts = st.acts ++ a ∧
      ∀ x ∈ a, ∃ it ∈ L, x = MAct.deleteEmptyDir it.1 := by
  intro L
  induction L with
  | nil =>
    intro st
    exact ⟨rfl, rfl, [], by simp, by simp⟩
  | cons it rest ih =>
    intro st
    rw [List.foldl_cons]
    obtain ⟨hdir, htgt, a, hacts, hmem⟩ := ih (delStep dry st it)
    unfold delStep at *
    by_cases hemp : emptyDirAt st.src it.1 = true
    · rw [hemp] at hdir htgt hacts ⊢
      simp only [if_true] at hdir htgt hacts ⊢
      refine ⟨by rw [hdir]; cases dry <;> simp [isDirT_removeAt], htgt, ?_⟩
      refine ⟨.deleteEmptyDir it.1 :: a, by rw [hacts]; simp, ?_⟩
      intro x hx
      rcases List.mem_cons.mp hx with h1 | h2
      · exact ⟨it, List.mem_cons_self .., h1⟩
      · obtain ⟨it2, hit2, hx2⟩ := hmem x h2
        exact ⟨it2, List.mem_cons_of_mem _ hit2, hx2⟩
    · rw [Bool.not_eq_true] at hemp
      rw [hemp] at hdir htgt hacts ⊢
      simp only [Bool.false_eq_true, if_false] at hdir htgt hacts ⊢
      refine ⟨hdir, htgt, a, hacts, ?_⟩
      intro x hx
      obtain ⟨it2, hit2, hx2⟩ := hmem x hx
      exact ⟨it2, List.mem_cons_of_mem _ hit2, hx2⟩

theorem mem_insDesc (a x : List String × Bool) (l : List (List String × Bool)) :
    x ∈ insDesc a l ↔ x ∈ a :: l := by
  induction l with
  | nil => simp [insDesc]
  | cons b r ih =>
    unfold insDesc
    by_cases hle : b.1.length ≤ a.1.length
    · simp [hle]
    · simp only [hle, if_false, List.mem_cons, ih]
      tauto

theorem mem_sortDesc (x : List String × Bool) (l : List (List String × Bool)) :
    x ∈ sortDesc l ↔ x ∈ l := by
  induction l with
  | nil => simp [sortDesc]
  | cons a r ih =>
    rw [sortDesc, mem_insDesc]
    simp [ih]

theorem deletePass_spec (dry : Bool) (st : MState) :
    isDirT (deletePass dry st).src = isDirT st.src ∧
    (deletePass dry st).tgt = st.tgt ∧
    ∃ a, (deletePass dry st).acts = st.acts ++ a ∧
      ∀ x ∈ a, ∃ p, p ≠ [] ∧ x = MAct.deleteEmptyDir p := by
  unfold deletePass
  obtain ⟨hdir, htgt, a, hacts, hmem⟩ :=
    foldl_delStep_spec dry (sortDesc (rglobT [] st.src)) st
  refine ⟨hdir, htgt, a, hacts, ?_⟩
  intro x hx
  obtain ⟨it, hit, hx2⟩ := hmem x hx
  have hmem2 : it ∈ rglobT [] st.src := (mem_sortDesc it _).mp hit
  exact ⟨it.1, rglob_root_ne_nil st.src it hmem2, hx2⟩

theorem mergeMain_spec (ow del dry : Bool) (s : MTree) (t : Option MTree)
    (acts0 : List MAct) (st : MState)
    (h : mergeMain ow del dry s t acts0 = .ok st) :
    isDirT st.src = isDirT s ∧
    ∃ a, st.acts = acts0 ++ a ∧ ∀ p, MAct.deleteEmptyDir p ∈ a → p ≠ [] := by
  unfold mergeMain at h
  obtain ⟨st1, hfold, hst⟩ := exceptMap_ok _ _ _ h
  obtain ⟨hdir1, a1, hacts1, hnd1⟩ := foldlM_moveStep_spec ow dry (rglobT [] s) _ st1 hfold
  cases del with
  | false =>
    simp only [Bool.false_eq_true, if_false] at hst
    subst hst
    refine ⟨hdir1, a1, hacts1, ?_⟩
    intro p hp
    exact absurd hp (hnd1 p)
  | true =>
    simp only [if_true] at hst
    subst hst
    obtain ⟨hdir2, htgt2, a2, hacts2, hmem2⟩ := deletePass_spec dry st1
    refine ⟨by rw [hdir2, hdir1], a1 ++ a2, by rw [hacts2, hacts1, List.append_assoc], ?_⟩
    intro p hp
    rcases List.mem_append.mp hp with h1 | h2
    · exact absurd h1 (hnd1 p)
    · obtain ⟨q, hq, he⟩ := hmem2 _ h2
      cases he
      exact hq

/-- C9. Validation of a merge: a source that is not an existing directory,
or a target that exists and is not a directory, makes the merge fail with
the validation error, returning no merged state at all (so nothing is
mutated); and when the target does not exist, the first planned action is
the creation of the target root. -/
theorem merge_validation (src tgt : Option MTree) (ow del dry : Bool) :
    (isDirO src = false →
      merge_directories src tgt ow del dry = .error "Source must be a directory")
    ∧ (isDirO src = true → isFileO tgt = true →
      merge_directories src tgt ow del dry = .error "Target exists and is not a directory")
    ∧ (tgt = none → ∀ st, merge_directories src tgt ow del dry = .ok st →
      st.acts.head? = some (.createDir [])) := by
  refine ⟨?_, ?_, ?_⟩
  · intro hs
    unfold merge_directories
    rcases src with _ | s
    · rfl
    · rcases s with c | ses
      · rfl
      · simp [isDirO] at hs
  · intro hs ht
    unfold merge_directories
    rcases src with _ | s
    · simp [isDirO] at hs
    · rcases s with c | ses
      · simp [isDirO] at hs
      · rcases tgt with _ | t2
        · simp [isFileO] at ht
        · rcases t2 with c2 | tes
          · rfl
          · simp [isFileO] at ht
  · intro ht st h
    subst ht
    unfold merge_directories at h
    rcases src with _ | s
    · cases h
    · rcases s with c | ses
      · cases h
      · obtain ⟨_, a, hacts, _⟩ := mergeMain_spec ow del dry _ _ _ st h
        rw [hacts]
        rfl

/-- C9 witness: a file source fails validation, and a merge into a missing
target plans the target-root creation first. -/
theorem merge_validation_witness :
    merge_directories (some (.file 3)) (some (.dir [])) false false true =
      .error "Source must be a directory"
    ∧ ∀ st, merge_directories (some (.dir [("x", .file 1)])) none false false true = .ok st →
        st.acts.head? = some (.createDir []) :=
  ⟨(merge_validation (some (.file 3)) (some (.dir [])) false false true).1 rfl,
   fun st h =>
    (merge_validation (some (.dir [("x", .file 1)])) none false false true).2.2 rfl st h⟩

/-- C10. The source root itself is never removed by a merge: the final
source is still a directory, and every emptied-directory deletion the merge
performs names a strict descendant (a nonempty relative path), never the
source root. -/
theorem merge_keeps_source_root (src tgt : Option MTree) (ow del dry : Bool)
    (st : MState) (h : merge_directories src tgt ow del dry = .ok st) :
    isDirT st.src = true ∧ ∀ p, MAct.deleteEmptyDir p ∈ st.acts → p ≠ [] := by
  unfold merge_directories at h
  rcases src with _ | s
  · cases h
  · rcases s with c | ses
    · cases h
    · have hmm : ∀ (t0 : Option MTree) (acts0 : List MAct),
          mergeMain ow del dry (.dir ses) t0 acts0 = .ok st →
          (∀ p, MAct.deleteEmptyDir p ∉ acts0) →
          isDirT st.src = true ∧ ∀ p, MAct.deleteEmptyDir p ∈ st.acts → p ≠ [] := by
        intro t0 acts0 hmain hno
        obtain ⟨hdir, a, hacts, hnd⟩ := mergeMain_spec ow del dry _ _ _ st hmain
        refine ⟨by rw [hdir]; rfl, ?_⟩
        intro p hp
        rw [hacts] at hp
        rcases List.mem_append.mp hp with h1 | h2
        · exact absurd h1 (hno p)
        · exact hnd p h2
      rcases tgt with _ | t2
      · exact hmm _ _ h (by simp)
      · rcases t2 with c2 | tes
        · cases h
        · exact hmm _ _ h (by simp)

/-- C10 witness: a concrete merge with delete set; the leftover source root
is a directory and no delete action names the root. -/
theorem merge_keeps_source_root_witness :
    isDirT ((⟨.dir [], some (.dir [("d", .dir [])]),
      [MAct.createDir ["d"], MAct.moveFile ["d", "f"] false,
       MAct.deleteEmptyDir ["d"]]⟩ : MState)).src = true :=
  (merge_keeps_source_root (some (.dir [("d", .dir [("f", .file 7)])])) (some (.dir []))
    false true false _ rfl).1

/-! ### Lemmas: tree walker -/

theorem stackFuel_append (l1 l2 : List WItem) :
    stackFuel (l1 ++ l2) = stackFuel l1 + stackFuel l2 := by
  induction l1 with
  | nil => simp [stackFuel]
  | cons it r ih => simp [stackFuel, ih]; omega

theorem stackFuel_reverse (l : List WItem) : stackFuel l.reverse = stackFuel l := by
  induction l with
  | nil => rfl
  | cons it r ih => simp [stackFuel, List.reverse_cons, stackFuel_append, ih]; omega

theorem scanDir_stackFuel (attr : Attr) (p : List String) :
    ∀ (es : List FEntry) (recs : List (List String × AVal)) (dirs : List WItem),
    scanDir attr p es = .ok (recs, dirs) → stackFuel dirs = dirCountL es := by
  intro es
  induction es with
  | nil =>
    intro recs dirs h
    cases h
    rfl
  | cons e r ih =>
    intro recs dirs h
    cases e with
    | file n st =>
      cases st with
      | none => cases h
      | some s =>
        obtain ⟨x, hx, hb⟩ := exceptMap_ok _ _ _ h
        obtain ⟨x1, x2⟩ := x
        cases hb
        simp only [dirCountL, dirCount1]
        rw [ih x1 x2 hx]
        omega
    | dir n cs =>
      obtain ⟨x, hx, hb⟩ := exceptMap_ok _ _ _ h
      obtain ⟨x1, x2⟩ := x
      cases hb
      simp only [dirCountL, dirCount1, stackFuel]
      rw [ih x1 x2 hx]
    | slink n sub =>
      simp only [dirCountL, dirCount1]
      rw [ih recs dirs (by rw [← h]; rfl)]
      omega

theorem walkAux_total (attr : Attr) :
    ∀ (fuel : Nat) (stack : List WItem) acc vis, 1 + stackFuel stack ≤ fuel →
    ∃ res, walkAux attr fuel stack acc vis = some res := by
  intro fuel
  induction fuel with
  | zero =>
    intro stack acc vis h
    omega
  | succ f ih =>
    intro stack acc vis h
    cases stack with
    | nil => exact ⟨.ok (acc, vis), rfl⟩
    | cons it rest =>
      rw [walkAux]
      cases hscan : scanDir attr it.path it.entries with
      | error e =>
        exact ⟨.error e, rfl⟩
      | ok rd =>
        obtain ⟨recs, dirs⟩ := rd
        dsimp only
        apply ih
        rw [stackFuel_append, stackFuel_reverse,
          scanDir_stackFuel attr it.path it.entries recs dirs hscan]
        simp only [stackFuel] at h
        omega

theorem scanDir_dirs_mem (attr : Attr) (p : List String) :
    ∀ (es : List FEntry) (recs : List (List String × AVal)) (dirs : List WItem),
    scanDir attr p es = .ok (recs, dirs) →
    ∀ d ∈ dirs, ∃ n cs, d = ⟨p ++ [n], cs⟩ ∧ FEntry.dir n cs ∈ es := by
  intro es
  induction es with
  | nil =>
    intro recs dirs h
    cases h
    simp
  | cons e r ih =>
    intro recs dirs h
    cases e with
    | file n st =>
      cases st with
      | none => cases h
      | some s =>
        obtain ⟨x, hx, hb⟩ := exceptMap_ok _ _ _ h
        obtain ⟨x1, x2⟩ := x
        cases hb
        intro d hd
        obtain ⟨n2, cs2, hd2, hm2⟩ := ih x1 x2 hx d hd
        exact ⟨n2, cs2, hd2, List.mem_cons_of_mem _ hm2⟩
    | dir n cs =>
      obtain ⟨x, hx, hb⟩ := exceptMap_ok _ _ _ h
      obtain ⟨x1, x2⟩ := x
      cases hb
      intro d hd
      rcases List.mem_cons.mp hd with h1 | h2
      · exact ⟨n, cs, h1, List.mem_cons_self ..⟩
      · obtain ⟨n2, cs2, hd2, hm2⟩ := ih x1 x2 hx d h2
        exact ⟨n2, cs2, hd2, List.mem_cons_of_mem _ hm2⟩
    | slink n sub =>
      intro d hd
      obtain ⟨n2, cs2, hd2, hm2⟩ := ih recs dirs (by rw [← h]; rfl) d hd
      exact ⟨n2, cs2, hd2, List.mem_cons_of_mem _ hm2⟩

theorem walkAux_reach (attr : Attr) (root : List FEntry) :
    ∀ (fuel : Nat) (stack : List WItem) acc vis
      (out : List (List String × AVal) × List (List String)),
    (∀ it ∈ stack, ReachDir root it.path it.entries) →
    (∀ p ∈ vis, ∃ cs, ReachDir root p cs) →
    walkAux attr fuel stack acc vis = some (.ok out) →
    ∀ p ∈ out.2, ∃ cs, ReachDir root p cs := by
  intro fuel
  induction fuel with
  | zero =>
    intro stack acc vis out hs hv h
    cases h
  | succ f ih =>
    intro stack acc vis out hs hv h
    cases stack with
    | nil =>
      rw [walkAux] at h
      cases h
      exact hv
    | cons it rest =>
      rw [walkAux] at h
      cases hscan : scanDir attr it.path it.entries with
      | error e =>
        rw [hscan] at h
        simp at h
      | ok rd =>
        obtain ⟨recs, dirs⟩ := rd
        rw [hscan] at h
        dsimp only at h
        apply ih _ _ _ out _ _ h
        · intro it2 hit2
          rcases List.mem_append.mp hit2 with h1 | h2
          · have h1r := List.mem_reverse.mp h1
            obtain ⟨n, cs, hd2, hm2⟩ :=
              scanDir_dirs_mem attr it.path it.entries recs dirs hscan it2 h1r
            rw [hd2]
            exact ReachDir.step it.path it.entries n cs
              (hs it (List.mem_cons_self ..)) hm2
          · exact hs it2 (List.mem_cons_of_mem _ h2)
        · intro p hp
          rcases List.mem_append.mp hp with h1 | h2
          · exact hv p h1
          · have hpp : p = it.path := by simpa using h2
            rw [hpp]
            exact ⟨it.entries, hs it (List.mem_cons_self ..)⟩

theorem scanDir_erase (attr : Attr) (p : List String) :
    ∀ es : List FEntry, scanDir attr p (eraseSlinksL es) =
      (scanDir attr p es).map (fun x => (x.1, x.2.map eraseW)) := by
  intro es
  induction es with
  | nil => rfl
  | cons e r ih =>
    cases e with
    | file n st =>
      cases st with
      | none => rfl
      | some s =>
        simp only [eraseSlinksL, eraseSlinks1, scanDir, ih]
        cases hres : scanDir attr p r <;> simp [Except.map]
    | dir n cs =>
      simp only [eraseSlinksL, eraseSlinks1, scanDir, ih]
      cases hres : scanDir attr p r <;> simp [Except.map, eraseW]
    | slink n sub =>
      simp only [eraseSlinksL, eraseSlinks1, scanDir, ih]

theorem walkAux_erase (attr : Attr) :
    ∀ (fuel : Nat) (stack : List WItem) acc vis,
    walkAux attr fuel (stack.map eraseW) acc vis = walkAux attr fuel stack acc vis := by
  intro fuel
  induction fuel with
  | zero => intro stack acc vis; rfl
  | succ f ih =>
    intro stack acc vis
    cases stack with
    | nil => rfl
    | cons it rest =>
      rw [List.map_cons, walkAux, walkAux]
      have he : scanDir attr (eraseW it).path (eraseW it).entries =
          (scanDir attr it.path it.entries).map (fun x => (x.1, x.2.map eraseW)) :=
        scanDir_erase attr it.path it.entries
      rw [he]
      cases hscan : scanDir attr it.path it.entries with
      | error e => rfl
      | ok rd =>
        obtain ⟨recs, dirs⟩ := rd
        dsimp only [Except.map]
        rw [← List.map_reverse, ← List.map_append]
        exact ih (dirs.reverse ++ rest) (acc ++ recs) (vis ++ [it.path])

mutual
theorem dirCount1_erase (e : FEntry) : dirCount1 (eraseSlinks1 e) = dirCount1 e := by
  cases e with
  | file n st => rfl
  | dir n cs => simp only [eraseSlinks1, dirCount1, dirCountL_erase cs]
  | slink n sub => rfl
theorem dirCountL_erase (es : List FEntry) : dirCountL (eraseSlinksL es) = dirCountL es := by
  cases es with
  | nil => rfl
  | cons e r => simp only [eraseSlinksL, dirCountL, dirCount1_erase e, dirCountL_erase r]
end

/-- C6. The tree walk is symlink safe: it terminates within a fuel bound
that does not depend on what symlink directories resolve to (so even a
cyclic link cannot make it loop), its entire result is unchanged when the
resolved subtrees of all symlink directories are emptied (it never reads
them), and every directory it enters is reachable from the root through
real, non-symlink directory entries only. -/
theorem walker_symlink_safe (attr : Attr) (root : List FEntry) :
    (∃ res, parse_directory attr root = some res)
    ∧ parse_directory attr (eraseSlinksL root) = parse_directory attr root
    ∧ ∀ out, parse_directory attr root = some (.ok out) →
      ∀ p ∈ out.2, ∃ cs, ReachDir root p cs := by
  refine ⟨?_, ?_, ?_⟩
  · apply walkAux_total
    simp only [stackFuel]
    omega
  · unfold parse_directory
    rw [dirCountL_erase]
    have he := walkAux_erase attr (2 + dirCountL root) [⟨[], root⟩] [] []
    simpa [eraseW] using he
  · intro out h p hp
    refine walkAux_reach attr root _ _ _ _ out ?_ ?_ h p hp
    · intro it hit
      have : it = ⟨[], root⟩ := by simpa using hit
      rw [this]
      exact .base
    · intro q hq
      simp at hq

theorem scanDir_error_bad (attr : Attr) (p : List String) :
    ∀ (es : List FEntry) (e : Unit), scanDir attr p es = .error e → hasBadL es = true := by
  intro es
  induction es with
  | nil => intro e h; cases h
  | cons en r ih =>
    intro e h
    cases en with
    | file n st =>
      cases st with
      | none => simp [hasBadL, hasBad1]
      | some s =>
        simp only [hasBadL, hasBad1, Option.isNone_some, Bool.false_or]
        cases hres : scanDir attr p r with
        | error e2 => exact ih e2 hres
        | ok x =>
          rw [scanDir, hres] at h
          simp [Except.map] at h
    | dir n cs =>
      simp only [hasBadL, hasBad1]
      cases hres : scanDir attr p r with
      | error e2 => simp [ih e2 hres]
      | ok x =>
        rw [scanDir, hres] at h
        simp [Except.map] at h
    | slink n sub =>
      simp only [hasBadL, hasBad1, Bool.false_or]
      exact ih e (by rw [← h]; rfl)

theorem scanDir_hasBad (attr : Attr) (p : List String) :
    ∀ (es : List FEntry) (recs : List (List String × AVal)) (dirs : List WItem),
    scanDir attr p es = .ok (recs, dirs) →
    (hasBadL es = true ↔ ∃ d ∈ dirs, hasBadL d.entries = true) := by
  intro es
  induction es with
  | nil =>
    intro recs dirs h
    cases h
    simp [hasBadL]
  | cons en r ih =>
    intro recs dirs h
    cases en with
    | file n st =>
      cases st with
      | none => cases h
      | some s =>
        obtain ⟨x, hx, hb⟩ := exceptMap_ok _ _ _ h
        obtain ⟨x1, x2⟩ := x
        cases hb
        simp only [hasBadL, hasBad1, Option.isNone_some, Bool.false_or]
        exact ih x1 x2 hx
    | dir n cs =>
      obtain ⟨x, hx, hb⟩ := exceptMap_ok _ _ _ h
      obtain ⟨x1, x2⟩ := x
      cases hb
      simp only [hasBadL, hasBad1]
      constructor
      · intro hor
        rcases Bool.or_eq_true_iff.mp hor with h1 | h2
        · exact ⟨⟨p ++ [n], cs⟩, List.mem_cons_self .., h1⟩
        · obtain ⟨d, hd, hbd⟩ := (ih x1 x2 hx).mp h2
          exact ⟨d, List.mem_cons_of_mem _ hd, hbd⟩
      · intro hex
        obtain ⟨d, hd, hbd⟩ := hex
        rcases List.mem_cons.mp hd with h1 | h2
        · rw [h1] at hbd
          exact Bool.or_eq_true_iff.mpr (Or.inl hbd)
        · exact Bool.or_eq_true_iff.mpr (Or.inr ((ih x1 x2 hx).mpr ⟨d, h2, hbd⟩))
    | slink n sub =>
      simp only [hasBadL, hasBad1, Bool.false_or]
      exact ih recs dirs (by rw [← h]; rfl)

theorem walkAux_error_iff (attr : Attr) :
    ∀ (fuel : Nat) (stack : List WItem) acc vis, 1 + stackFuel stack ≤ fuel →
    (walkAux attr fuel stack acc vis = some (.error ()) ↔
      ∃ it ∈ stack, hasBadL it.entries = true) := by
  intro fuel
  induction fuel with
  | zero =>
    intro stack acc vis h
    omega
  | succ f ih =>
    intro stack acc vis h
    cases stack with
    | nil =>
      rw [walkAux]
      simp
    | cons it rest =>
      rw [walkAux]
      cases hscan : scanDir attr it.path it.entries with
      | error e =>
        obtain ⟨⟩ := e
        dsimp only
        constructor
        · intro _
          exact ⟨it, List.mem_cons_self ..,
            scanDir_error_bad attr it.path it.entries () hscan⟩
        · intro _
          rfl
      | ok rd =>
        obtain ⟨recs, dirs⟩ := rd
        dsimp only
        have hfu : 1 + stackFuel (dirs.reverse ++ rest) ≤ f := by
          rw [stackFuel_append, stackFuel_reverse,
            scanDir_stackFuel attr it.path it.entries recs dirs hscan]
          simp only [stackFuel] at h
          omega
        rw [ih (dirs.reverse ++ rest) (acc ++ recs) (vis ++ [it.path]) hfu]
        constructor
        · intro hex
          obtain ⟨it2, hit2, hb2⟩ := hex
          rcases List.mem_append.mp hit2 with h1 | h2
          · exact ⟨it, List.mem_cons_self ..,
              (scanDir_hasBad attr it.path it.entries recs dirs hscan).mpr
                ⟨it2, List.mem_reverse.mp h1, hb2⟩⟩
          · exact ⟨it2, List.mem_cons_of_mem _ h2, hb2⟩
        · intro hex
          obtain ⟨it2, hit2, hb2⟩ := hex
          rcases List.mem_cons.mp hit2 with h1 | h2
          · rw [h1] at hb2
            obtain ⟨d, hd, hbd⟩ :=
              (scanDir_hasBad attr it.path it.entries recs dirs hscan).mp hb2
            exact ⟨d, List.mem_append.mpr (Or.inl (List.mem_reverse.mpr hd)), hbd⟩
          · exact ⟨it2, List.mem_append.mpr (Or.inr h2), hb2⟩

/-- C7 amended claim. A failing stat aborts the whole traversal: the walk
returns the error (producing no snapshot at all) exactly when some file in
the visited region vanished before its stat; no skip-and-continue recovery
exists in `parse_directory`. -/
theorem walker_stat_error_iff (attr : Attr) (root : List FEntry) :
    parse_directory attr root = some (.error ()) ↔ hasBadL root = true := by
  unfold parse_directory
  rw [walkAux_error_iff attr (2 + dirCountL root) [⟨[], root⟩] [] []
    (by simp only [stackFuel]; omega)]
  simp

/-- C7 counterexample to the claim as stated: with a good file, then a
vanished file, then another good file, the walk does not skip the failing
record and continue — it aborts with the error, and no snapshot (in
particular no record for the third file) is produced. -/
theorem walker_stat_abort_cex :
    parse_directory .size [.file "a" (some ⟨5, 0, 0, 0⟩), .file "b" none,
      .file "c" (some ⟨7, 0, 0, 0⟩)] = some (.error ()) := rfl

/-! ### Lemmas: path prefixes and single-path tree updates -/

theorem isPfxOf_len (q : List String) :
    ∀ p, isPfxOf q p = true → q.length ≤ p.length := by
  induction q with
  | nil => intro p _; simp
  | cons a q2 ih =>
    intro p h
    cases p with
    | nil => simp [isPfxOf] at h
    | cons b p2 =>
      simp only [isPfxOf, Bool.and_eq_true] at h
      have := ih p2 h.2
      simp only [List.length_cons]
      omega

theorem isPfxOf_longer (q p : List String) (h : p.length < q.length) :
    isPfxOf q p = false := by
  cases hq : isPfxOf q p with
  | false => rfl
  | true =>
    have := isPfxOf_len q p hq
    omega

theorem isPfxOf_shift (x : List String) :
    ∀ q p, isPfxOf (x ++ q) (x ++ p) = isPfxOf q p := by
  induction x with
  | nil => intro q p; rfl
  | cons a x2 ih => intro q p; simp [isPfxOf, ih]

theorem isPfxOf_self_app (q r : List String) : isPfxOf q (q ++ r) = true := by
  induction q with
  | nil => rfl
  | cons a q2 ih => simp [isPfxOf, ih]

theorem isPfxOf_nil_iff (q : List String) : isPfxOf q [] = true ↔ q = [] := by
  cases q <;> simp [isPfxOf]

theorem findE_updateE_ne (f : MTree → MTree) (es : List (String × MTree))
    (n m : String) (h : m ≠ n) : findE (updateE f es n) m = findE es m := by
  induction es with
  | nil => rfl
  | cons ke r ih =>
    obtain ⟨k, e⟩ := ke
    by_cases hk : k = n
    · subst hk
      simp [updateE, findE, h, Ne.symm h]
    · simp only [updateE, hk, if_false]
      by_cases hm : k = m <;> simp [findE, hm, ih]

theorem findE_updateE_eq (f : MTree → MTree) (es : List (String × MTree)) (n : String) :
    findE (updateE f es n) n = (findE es n).map f := by
  induction es with
  | nil => rfl
  | cons ke r ih =>
    obtain ⟨k, e⟩ := ke
    by_cases hk : k = n
    · subst hk
      simp [updateE, findE]
    · simp [updateE, findE, hk, ih]

theorem findE_append (es es2 : List (String × MTree)) (m : String) :
    findE (es ++ es2) m =
      (match findE es m with
       | some e => some e
       | none => findE es2 m) := by
  induction es with
  | nil => rfl
  | cons ke r ih =>
    obtain ⟨k, e⟩ := ke
    by_cases hk : k = m <;> simp [findE, hk, ih]

theorem mkChain_lookup_none (p : List String) :
    ∀ q, isPfxOf q p = false → lookupPath (mkChain p) q = none := by
  induction p with
  | nil =>
    intro q h
    cases q with
    | nil => simp [isPfxOf] at h
    | cons m q2 => rfl
  | cons n p2 ih =>
    intro q h
    cases q with
    | nil => simp [isPfxOf] at h
    | cons m q2 =>
      by_cases hm : m = n
      · subst hm
        simp only [isPfxOf, Bool.and_eq_true] at h
        have h2 : isPfxOf q2 p2 = false := by
          cases hq : isPfxOf q2 p2 with
          | false => rfl
          | true => simp [hq] at h
        simp only [mkChain, lookupPath, findE, if_pos rfl]
        exact ih q2 h2
      · simp [mkChain, lookupPath, findE, Ne.symm hm]

theorem mkdirAt_lookup (p0 : List String) :
    ∀ (t t2 : MTree) (q : List String), mkdirAt t p0 = .ok t2 →
      isPfxOf q p0 = false → lookupPath t2 q = lookupPath t q := by
  induction p0 with
  | nil =>
    intro t t2 q h hq
    cases t with
    | file c => cases h
    | dir es =>
      cases h
      rfl
  | cons n p2 ih =>
    intro t t2 q h hq
    cases t with
    | file c => cases h
    | dir es =>
      rw [mkdirAt] at h
      cases q with
      | nil => simp [isPfxOf] at hq
      | cons m q2 =>
        cases hfe : findE es n with
        | some e =>
          rw [hfe] at h
          obtain ⟨e2, he2, ht2⟩ := exceptMap_ok _ _ _ h
          subst ht2
          by_cases hm : m = n
          · subst hm
            simp only [lookupPath, findE_updateE_eq, hfe, Option.map_some]
            have hq2 : isPfxOf q2 p2 = false := by
              simp only [isPfxOf, Bool.and_eq_true] at hq
              cases hqq : isPfxOf q2 p2 with
              | false => rfl
              | true => simp [hqq] at hq
            exact ih e e2 q2 he2 hq2
          · simp [lookupPath, findE_updateE_ne _ _ _ _ hm]
        | none =>
          rw [hfe] at h
          cases h
          by_cases hm : m = n
          · subst hm
            simp only [lookupPath, findE_append, hfe, findE, if_pos rfl]
            have hq2 : isPfxOf q2 p2 = false := by
              simp only [isPfxOf, Bool.and_eq_true] at hq
              cases hqq : isPfxOf q2 p2 with
              | false => rfl
              | true => simp [hqq] at hq
            exact mkChain_lookup_none p2 q2 hq2
          · simp only [lookupPath, findE_append, findE]
            rw [if_neg (Ne.symm hm)]
            cases hfm : findE es m <;> rfl

theorem insertFileAt_lookup (p0 : List String) :
    ∀ (t t2 : MTree) (c : Nat) (q : List String), insertFileAt t p0 c = .ok t2 →
      isPfxOf q p0 = false → lookupPath t2 q = lookupPath t q := by
  induction p0 with
  | nil =>
    intro t t2 c q h hq
    cases t with
    | file c0 => cases h
    | dir es => cases h
  | cons n p2 ih =>
    intro t t2 c q h hq
    cases t with
    | file c0 => cases h
    | dir es =>
      rw [insertFileAt.eq_def] at h
      dsimp only at h
      cases q with
      | nil => simp [isPfxOf] at hq
      | cons m q2 =>
        have hq2 : m = n → isPfxOf q2 p2 = false := by
          intro hm
          subst hm
          simp only [isPfxOf, Bool.and_eq_true] at hq
          cases hqq : isPfxOf q2 p2 with
          | false => rfl
          | true => simp [hqq] at hq
        cases p2 with
        | nil =>
          dsimp only at h
          cases hfe : findE es n with
          | some e =>
            rw [hfe] at h
            cases e with
            | dir cs => cases h
            | file c0 =>
              cases h
              by_cases hm : m = n
              · subst hm
                simp only [lookupPath, findE_updateE_eq, hfe, Option.map_some]
                have : isPfxOf q2 [] = false := hq2 rfl
                have hq2ne : q2 ≠ [] := by
                  intro he
                  rw [he] at this
                  simp [isPfxOf] at this
                cases q2 with
                | nil => exact absurd rfl hq2ne
                | cons a b => rfl
              · simp [lookupPath, findE_updateE_ne _ _ _ _ hm]
          | none =>
            rw [hfe] at h
            cases h
            by_cases hm : m = n
            · subst hm
              simp only [lookupPath, findE_append, hfe, findE, if_pos rfl]
              have : isPfxOf q2 [] = false := hq2 rfl
              have hq2ne : q2 ≠ [] := by
                intro he
                rw [he] at this
                simp [isPfxOf] at this
              cases q2 with
              | nil => exact absurd rfl hq2ne
              | cons a b => rfl
            · simp only [lookupPath, findE_append, findE]
              rw [if_neg (Ne.symm hm)]
              cases hfm : findE es m <;> rfl
        | cons x xs =>
          dsimp only at h
          cases hfe : findE es n with
          | some e =>
            rw [hfe] at h
            obtain ⟨e2, he2, ht2⟩ := exceptMap_ok _ _ _ h
            subst ht2
            by_cases hm : m = n
            · subst hm
              simp only [lookupPath, findE_updateE_eq, hfe, Option.map_some]
              exact ih e e2 c q2 he2 (hq2 rfl)
            · simp [lookupPath, findE_updateE_ne _ _ _ _ hm]
          | none =>
            rw [hfe] at h
            cases h

/-! ### Lemmas: enumeration order and dry-run / real-run agreement -/

theorem rglobL_key (p : List String) (es : List (String × MTree)) :
    ∀ x ∈ rglobL p es, ∃ m r2, x.1 = p ++ m :: r2 ∧ (findE es m).isSome = true := by
  induction es with
  | nil =>
    intro x hx
    simp [rglobL] at hx
  | cons ne rest ih =>
    obtain ⟨n, e⟩ := ne
    intro x hx
    rw [rglobL] at hx
    rcases List.mem_cons.mp hx with h1 | h2
    · exact ⟨n, [], by rw [h1], by simp [findE]⟩
    · rcases List.mem_append.mp h2 with h3 | h4
      · obtain ⟨r2, hr2, hne⟩ := rglobT_extends (p ++ [n]) e x h3
        refine ⟨n, r2, ?_, by simp [findE]⟩
        rw [hr2, List.append_assoc]
        rfl
      · obtain ⟨m, r2, hm, hf⟩ := ih x h4
        refine ⟨m, r2, hm, ?_⟩
        by_cases hmn : n = m <;> simp [findE, hmn, hf]

mutual
theorem rglobT_pairwise (p : List String) (t : MTree) (hwf : wfT t = true) :
    List.Pairwise (fun a b => isPfxOf b.1 a.1 = false) (rglobT p t) := by
  cases t with
  | file c =>
    rw [rglobT]
    exact List.Pairwise.nil
  | dir es =>
    rw [rglobT]
    exact rglobL_pairwise p es (by rw [wfT] at hwf; exact hwf)
theorem rglobL_pairwise (p : List String) (es : List (String × MTree))
    (hwf : wfL es = true) :
    List.Pairwise (fun a b => isPfxOf b.1 a.1 = false) (rglobL p es) := by
  cases es with
  | nil =>
    rw [rglobL]
    exact List.Pairwise.nil
  | cons ne rest =>
    obtain ⟨n, e⟩ := ne
    rw [wfL, Bool.and_eq_true, Bool.and_eq_true] at hwf
    obtain ⟨⟨hnone, hwfe⟩, hwfr⟩ := hwf
    have hkey : ∀ x ∈ rglobL p rest, ∃ m r2, x.1 = p ++ m :: r2 ∧ m ≠ n := by
      intro x hx
      obtain ⟨m, r2, hm, hf⟩ := rglobL_key p rest x hx
      refine ⟨m, r2, hm, ?_⟩
      intro he
      rw [he] at hf
      rw [Option.isNone_iff_eq_none] at hnone
      rw [hnone] at hf
      cases hf
    rw [rglobL]
    refine List.pairwise_cons.mpr ⟨?_, ?_⟩
    · intro x hx
      rcases List.mem_append.mp hx with h1 | h2
      · obtain ⟨r2, hr2, hne⟩ := rglobT_extends (p ++ [n]) e x h1
        apply isPfxOf_longer
        rw [hr2, List.length_append, List.length_append]
        cases r2 with
        | nil => exact absurd rfl hne
        | cons a b => simp
      · obtain ⟨m, r2, hm, hmn⟩ := hkey x h2
        rw [hm]
        have : p ++ [n] = p ++ n :: [] := rfl
        rw [this, isPfxOf_shift]
        simp [isPfxOf, hmn]
    · refine List.pairwise_append.mpr
        ⟨rglobT_pairwise (p ++ [n]) e hwfe, rglobL_pairwise p rest hwfr, ?_⟩
      intro a ha b hb
      obtain ⟨ra, hra, hnea⟩ := rglobT_extends (p ++ [n]) e a ha
      obtain ⟨m, r2, hm, hmn⟩ := hkey b hb
      rw [hm, hra, List.append_assoc, List.singleton_append, isPfxOf_shift]
      simp [isPfxOf, hmn]
end

theorem applyCreate_real (st st2 : MState) (rel : List String)
    (h : applyCreate false st rel = .ok st2) :
    ∃ t t2, st.tgt = some t ∧ mkdirAt t rel = .ok t2 ∧
      st2 = ⟨st.src, some t2, st.acts ++ [.createDir rel]⟩ := by
  unfold applyCreate at h
  simp only [Bool.false_eq_true, if_false] at h
  rcases htg : st.tgt with _ | t <;> rw [htg] at h
  · cases h
  · obtain ⟨t2, hmk, hst⟩ := exceptMap_ok _ _ _ h
    exact ⟨t, t2, rfl, hmk, hst⟩

theorem applyMove_real (st st2 : MState) (rel : List String) (tex : Bool)
    (h : applyMove false st rel tex = .ok st2) :
    ∃ t c t2, st.tgt = some t ∧ lookupPath st.src rel = some (.file c) ∧
      insertFileAt t rel c = .ok t2 ∧
      st2 = ⟨removeAt st.src rel, some t2, st.acts ++ [.moveFile rel tex]⟩ := by
  unfold applyMove at h
  simp only [Bool.false_eq_true, if_false] at h
  rcases htg : st.tgt with _ | t <;> rw [htg] at h
  · cases h
  · rcases hlk : lookupPath st.src rel with _ | e <;> rw [hlk] at h
    · cases h
    · rcases e with c | es
      · obtain ⟨t2, hin, hst⟩ := exceptMap_ok _ _ _ h
        exact ⟨t, c, t2, rfl, rfl, hin, hst⟩
      · cases h

theorem moveStep_tgt_pres (ow : Bool) (st st2 : MState) (it : List String × Bool)
    (h : moveStep ow false st it = .ok st2) (q : List String)
    (hq : isPfxOf q it.1 = false) : existsO st2.tgt q = existsO st.tgt q := by
  unfold moveStep at h
  cases hd : it.2 <;> rw [hd] at h <;> dsimp only at h <;>
    cases hex : existsO st.tgt it.1 <;> rw [hex] at h <;>
    simp only [Bool.false_eq_true, Bool.true_eq_false, if_true, if_false,
      Bool.not_true, Bool.not_false, Bool.true_or, Bool.false_or] at h
  · obtain ⟨t, c, t2, htg, hlk, hin, hst⟩ := applyMove_real st st2 it.1 false h
    rw [hst, htg]
    simp only [existsO]
    rw [insertFileAt_lookup it.1 t t2 c q hin hq]
  · cases ow with
    | true =>
      simp only [if_true] at h
      obtain ⟨t, c, t2, htg, hlk, hin, hst⟩ := applyMove_real st st2 it.1 true h
      rw [hst, htg]
      simp only [existsO]
      rw [insertFileAt_lookup it.1 t t2 c q hin hq]
    | false =>
      simp only [Bool.false_eq_true, if_false] at h
      cases h
      rfl
  · obtain ⟨t, t2, htg, hmk, hst⟩ := applyCreate_real st st2 it.1 h
    rw [hst, htg]
    simp only [existsO]
    rw [mkdirAt_lookup it.1 t t2 q hmk hq]
  · cases h
    rfl

theorem moveStep_dry_eq (ow : Bool) (st : MState) (it : List String × Bool) :
    moveStep ow true st it =
      .ok ⟨st.src, st.tgt, st.acts ++ decisionTable it.2 (existsO st.tgt it.1) ow it.1⟩ := by
  unfold moveStep applyCreate applyMove decisionTable
  cases hd : it.2 <;> cases hex : existsO st.tgt it.1 <;> cases how : ow <;>
    simp [hd, hex, how]

theorem foldlM_dry_state (ow : Bool) :
    ∀ (items : List (List String × Bool)) (st r : MState),
    items.foldlM (moveStep ow true) st = .ok r → r.src = st.src ∧ r.tgt = st.tgt := by
  intro items
  induction items with
  | nil =>
    intro st r h
    simp [List.foldlM_nil, pure, Except.pure] at h
    rw [← h]
    exact ⟨rfl, rfl⟩
  | cons it rest ih =>
    intro st r h
    obtain ⟨st1, hstep, hrest⟩ := foldlM_except_cons _ _ _ _ _ h
    rw [moveStep_dry_eq] at hstep
    cases hstep
    obtain ⟨h1, h2⟩ := ih _ r hrest
    exact ⟨h1, h2⟩

theorem delStep_dry_state (st : MState) (it : List String × Bool) :
    (delStep true st it).src = st.src ∧ (delStep true st it).tgt = st.tgt := by
  by_cases hemp : emptyDirAt st.src it.1 = true <;> simp [delStep, hemp]

theorem foldl_delStep_dry :
    ∀ (L : List (List String × Bool)) (st0 : MState),
    (L.foldl (delStep true) st0).src = st0.src ∧
    (L.foldl (delStep true) st0).tgt = st0.tgt := by
  intro L
  induction L with
  | nil =>
    intro st0
    exact ⟨rfl, rfl⟩
  | cons it rest ih =>
    intro st0
    rw [List.foldl_cons]
    obtain ⟨h1, h2⟩ := ih (delStep true st0 it)
    obtain ⟨h3, h4⟩ := delStep_dry_state st0 it
    exact ⟨by rw [h1, h3], by rw [h2, h4]⟩

theorem foldlM_dry_real_equiv (ow : Bool) :
    ∀ (items : List (List String × Bool)) (str std r : MState),
    std.acts = str.acts →
    (∀ it2 ∈ items, existsO str.tgt it2.1 = existsO std.tgt it2.1) →
    items.Pairwise (fun a b => isPfxOf b.1 a.1 = false) →
    items.foldlM (moveStep ow false) str = .ok r →
    items.foldlM (moveStep ow true) std = .ok ⟨std.src, std.tgt, r.acts⟩ := by
  intro items
  induction items with
  | nil =>
    intro str std r hacts hex hpw h
    simp only [List.foldlM_nil, pure, Except.pure, Except.ok.injEq] at h
    subst h
    have hstd : (⟨std.src, std.tgt, str.acts⟩ : MState) = std := by rw [← hacts]
    rw [List.foldlM_nil]
    rw [hstd]
    rfl
  | cons it rest ih =>
    intro str std r hacts hex hpw h
    obtain ⟨str1, hstep, hrest⟩ := foldlM_except_cons _ _ _ _ _ h
    have hexhd : existsO str.tgt it.1 = existsO std.tgt it.1 :=
      hex it (List.mem_cons_self ..)
    have hpwhd := (List.pairwise_cons.mp hpw).1
    have hpwtl := (List.pairwise_cons.mp hpw).2
    rw [List.foldlM_cons, moveStep_dry_eq]
    simp only [Bind.bind, Except.bind]
    have hacts1 : (⟨std.src, std.tgt,
        std.acts ++ decisionTable it.2 (existsO std.tgt it.1) ow it.1⟩ : MState).acts
        = str1.acts := by
      rw [moveStep_acts_eq ow false str it str1 hstep]
      simp only
      rw [hacts, hexhd]
    have hex1 : ∀ it2 ∈ rest, existsO str1.tgt it2.1 =
        existsO (⟨std.src, std.tgt,
          std.acts ++ decisionTable it.2 (existsO std.tgt it.1) ow it.1⟩ : MState).tgt it2.1 := by
      intro it2 hit2
      simp only
      rw [moveStep_tgt_pres ow str str1 it hstep it2.1 (hpwhd it2 hit2)]
      exact hex it2 (List.mem_cons_of_mem _ hit2)
    exact ih str1 _ r hacts1 hex1 hpwtl hrest

theorem lookup_empty_dir (n : String) (q : List String) :
    lookupPath (.dir []) (n :: q) = none := rfl

/-- C2 amended claim.  Dry run performs zero filesystem mutations (the
returned source and target trees are exactly the inputs, for every flag
combination); and with the delete flag off, a successful non-dry merge
applies exactly the action sequence the dry run plans.  (With the delete
flag on the sequences can differ, because the dry run evaluates directory
emptiness against the unmutated source: see the counterexample.) -/
theorem merge_dry_run_equiv (s : MTree) (tgt : Option MTree) (ow : Bool)
    (hwf : wfT s = true) :
    (∀ (del : Bool) (st : MState),
      merge_directories (some s) tgt ow del true = .ok st → st.src = s ∧ st.tgt = tgt)
    ∧ (∀ r : MState, merge_directories (some s) tgt ow false false = .ok r →
        merge_directories (some s) tgt ow false true = .ok ⟨s, tgt, r.acts⟩) := by
  constructor
  · intro del st h
    rcases s with c | ses
    · rw [show merge_directories (some (.file c)) tgt ow del true =
          .error "Source must be a directory" from rfl] at h
      cases h
    · have hmm : ∀ (t0 : Option MTree) (acts0 : List MAct),
          mergeMain ow del true (.dir ses) t0 acts0 = .ok st →
          st.src = .dir ses ∧ st.tgt = t0 := by
        intro t0 acts0 hmain
        unfold mergeMain at hmain
        obtain ⟨st1, hfold, hst⟩ := exceptMap_ok _ _ _ hmain
        obtain ⟨h1, h2⟩ := foldlM_dry_state ow _ _ st1 hfold
        cases del with
        | false =>
          simp only [Bool.false_eq_true, if_false] at hst
          rw [hst]
          exact ⟨h1, h2⟩
        | true =>
          simp only [if_true] at hst
          rw [hst]
          unfold deletePass
          obtain ⟨hd1, hd2⟩ := foldl_delStep_dry (sortDesc (rglobT [] st1.src)) st1
          rw [hd1, hd2]
          exact ⟨h1, h2⟩
      rcases tgt with _ | t2
      · exact hmm (if true then none else some (.dir [])) [.createDir []] h
      · rcases t2 with c2 | tes
        · rw [show merge_directories (some (.dir ses)) (some (.file c2)) ow del true =
              .error "Target exists and is not a directory" from rfl] at h
          cases h
        · exact hmm (some (.dir tes)) [] h
  · intro r h
    rcases s with c | ses
    · rw [show merge_directories (some (.file c)) tgt ow false false =
          .error "Source must be a directory" from rfl] at h
      cases h
    · rcases tgt with _ | t2
      · rw [show merge_directories (some (.dir ses)) none ow false false =
            mergeMain ow false false (.dir ses) (some (.dir [])) [.createDir []] from rfl] at h
        rw [show merge_directories (some (.dir ses)) none ow false true =
            mergeMain ow false true (.dir ses) none [.createDir []] from rfl]
        unfold mergeMain at h ⊢
        obtain ⟨st1, hfold, hst⟩ := exceptMap_ok _ _ _ h
        simp only [Bool.false_eq_true, if_false] at hst
        subst hst
        have heq := foldlM_dry_real_equiv ow (rglobT [] (.dir ses))
          ⟨.dir ses, some (.dir []), [.createDir []]⟩
          ⟨.dir ses, none, [.createDir []]⟩ r rfl ?_ ?_ hfold
        · rw [heq]
          rfl
        · intro it2 hit2
          have hne := rglob_root_ne_nil (.dir ses) it2 hit2
          cases hq : it2.1 with
          | nil => exact absurd hq hne
          | cons a b => simp [existsO, lookup_empty_dir]
        · exact rglobT_pairwise [] (.dir ses) hwf
      · rcases t2 with c2 | tes
        · rw [show merge_directories (some (.dir ses)) (some (.file c2)) ow false false =
              .error "Target exists and is not a directory" from rfl] at h
          cases h
        · rw [show merge_directories (some (.dir ses)) (some (.dir tes)) ow false false =
              mergeMain ow false false (.dir ses) (some (.dir tes)) [] from rfl] at h
          rw [show merge_directories (some (.dir ses)) (some (.dir tes)) ow false true =
              mergeMain ow false true (.dir ses) (some (.dir tes)) [] from rfl]
          unfold mergeMain at h ⊢
          obtain ⟨st1, hfold, hst⟩ := exceptMap_ok _ _ _ h
          simp only [Bool.false_eq_true, if_false] at hst
          subst hst
          have heq := foldlM_dry_real_equiv ow (rglobT [] (.dir ses))
            ⟨.dir ses, some (.dir tes), []⟩ ⟨.dir ses, some (.dir tes), []⟩ r rfl
            (fun it2 _ => rfl) (rglobT_pairwise [] (.dir ses) hwf) hfold
          rw [heq]
          rfl

/-- C2 witness: on a concrete source and target the dry run returns the
unmutated trees and exactly the plan the real run applies. -/
theorem merge_dry_run_equiv_witness :
    merge_directories (some (.dir [("x", .file 1)])) (some (.dir [])) false false true =
      .ok ⟨.dir [("x", .file 1)], some (.dir []), [.moveFile ["x"] false]⟩ :=
  (merge_dry_run_equiv (.dir [("x", .file 1)]) (some (.dir [])) false rfl).2
    ⟨.dir [], some (.dir [("x", .file 1)]), [.moveFile ["x"] false]⟩ rfl

/-- C2 counterexample to the claim as stated: with the delete flag set, the
real run deletes the directory `d` it has just emptied, while the dry run —
checking emptiness against the untouched filesystem, where `d` still holds
its file — omits that deletion, so the planned and applied sequences
differ. -/
theorem merge_dry_run_cex :
    (merge_directories (some (.dir [("d", .dir [("f", .file 7)])])) (some (.dir []))
        false true false).map (fun st => st.acts) =
      .ok [.createDir ["d"], .moveFile ["d", "f"] false, .deleteEmptyDir ["d"]]
    ∧ (merge_directories (some (.dir [("d", .dir [("f", .file 7)])])) (some (.dir []))
        false true true).map (fun st => st.acts) =
      .ok [.createDir ["d"], .moveFile ["d", "f"] false]
    ∧ ([MAct.createDir ["d"], .moveFile ["d", "f"] false, .deleteEmptyDir ["d"]] ≠
        [MAct.createDir ["d"], .moveFile ["d", "f"] false]) :=
  ⟨rfl, rfl, by decide⟩

/-! ### Lemmas: association-list utilities and well-formedness -/

theorem findE_mem (es : List (String × MTree)) (n : String) (e : MTree)
    (h : findE es n = some e) : (n, e) ∈ es := by
  induction es with
  | nil => cases h
  | cons ke r ih =>
    obtain ⟨k, e0⟩ := ke
    by_cases hk : k = n
    · subst hk
      rw [findE, if_pos rfl] at h
      cases h
      exact List.mem_cons_self ..
    · rw [findE, if_neg hk] at h
      exact List.mem_cons_of_mem _ (ih h)

theorem findE_isSome_of_mem (es : List (String × MTree)) (n : String) (e : MTree)
    (h : (n, e) ∈ es) : (findE es n).isSome = true := by
  induction es with
  | nil => cases h
  | cons ke r ih =>
    obtain ⟨k, e0⟩ := ke
    rcases List.mem_cons.mp h with h1 | h2
    · cases h1
      simp [findE]
    · by_cases hk : k = n <;> simp [findE, hk, ih h2]

theorem findE_of_mem_wf (es : List (String × MTree)) (n : String) (e : MTree)
    (hwf : wfL es = true) (h : (n, e) ∈ es) : findE es n = some e := by
  induction es with
  | nil => cases h
  | cons ke r ih =>
    obtain ⟨k, e0⟩ := ke
    rw [wfL, Bool.and_eq_true, Bool.and_eq_true] at hwf
    rcases List.mem_cons.mp h with h1 | h2
    · cases h1
      simp [findE]
    · have hk : k ≠ n := by
        intro he
        subst he
        have := findE_isSome_of_mem r k e h2
        rw [Option.isNone_iff_eq_none] at hwf
        rw [hwf.1.1] at this
        cases this
      rw [findE, if_neg hk]
      exact ih hwf.2 h2

theorem wfL_mem_wfT (es : List (String × MTree)) (n : String) (e : MTree)
    (hwf : wfL es = true) (h : (n, e) ∈ es) : wfT e = true := by
  induction es with
  | nil => cases h
  | cons ke r ih =>
    obtain ⟨k, e0⟩ := ke
    rw [wfL, Bool.and_eq_true, Bool.and_eq_true] at hwf
    rcases List.mem_cons.mp h with h1 | h2
    · cases h1
      exact hwf.1.2
    · exact ih hwf.2 h2

theorem updateE_absent (f : MTree → MTree) (es : List (String × MTree)) (n : String)
    (h : findE es n = none) : updateE f es n = es := by
  induction es with
  | nil => rfl
  | cons ke r ih =>
    obtain ⟨k, e⟩ := ke
    by_cases hk : k = n
    · subst hk
      rw [findE, if_pos rfl] at h
      cases h
    · rw [findE, if_neg hk] at h
      rw [updateE, if_neg hk, ih h]

theorem updateE_congr (f g : MTree → MTree) (es : List (String × MTree)) (n : String)
    (e : MTree) (h : findE es n = some e) (hfg : f e = g e) :
    updateE f es n = updateE g es n := by
  induction es with
  | nil => rfl
  | cons ke r ih =>
    obtain ⟨k, e0⟩ := ke
    by_cases hk : k = n
    · subst hk
      rw [findE, if_pos rfl] at h
      cases h
      rw [updateE, updateE, if_pos rfl, if_pos rfl, hfg]
    · rw [findE, if_neg hk] at h
      rw [updateE, updateE, if_neg hk, if_neg hk, ih h]

theorem updateE_self (f : MTree → MTree) (es : List (String × MTree)) (n : String)
    (e : MTree) (h : findE es n = some e) (hf : f e = e) : updateE f es n = es := by
  induction es with
  | nil => rfl
  | cons ke r ih =>
    obtain ⟨k, e0⟩ := ke
    by_cases hk : k = n
    · subst hk
      rw [findE, if_pos rfl] at h
      cases h
      rw [updateE, if_pos rfl, hf]
    · rw [findE, if_neg hk] at h
      rw [updateE, if_neg hk, ih h]

theorem findE_updateE_isNone (f : MTree → MTree) (es : List (String × MTree))
    (n k : String) : (findE (updateE f es n) k).isNone = (findE es k).isNone := by
  by_cases hk : k = n
  · subst hk
    rw [findE_updateE_eq]
    cases findE es k <;> rfl
  · rw [findE_updateE_ne f es n k hk]

theorem wfL_updateE (f : MTree → MTree) (es : List (String × MTree)) (n : String)
    (hwf : wfL es = true) (hf : ∀ e, findE es n = some e → wfT (f e) = true) :
    wfL (updateE f es n) = true := by
  induction es with
  | nil => rfl
  | cons ke r ih =>
    obtain ⟨k, e⟩ := ke
    rw [wfL, Bool.and_eq_true, Bool.and_eq_true] at hwf
    by_cases hk : k = n
    · subst hk
      rw [updateE, if_pos rfl, wfL, Bool.and_eq_true, Bool.and_eq_true]
      exact ⟨⟨hwf.1.1, hf e (by rw [findE, if_pos rfl])⟩, hwf.2⟩
    · rw [updateE, if_neg hk, wfL, Bool.and_eq_true, Bool.and_eq_true]
      refine ⟨⟨?_, hwf.1.2⟩, ih hwf.2 ?_⟩
      · rw [findE_updateE_isNone]
        exact hwf.1.1
      · intro e2 he2
        apply hf
        rw [findE, if_neg hk]
        exact he2

mutual
theorem wfT_removeAt (t : MTree) (p : List String) (hwf : wfT t = true) :
    wfT (removeAt t p) = true := by
  cases t with
  | file c => cases p <;> exact hwf
  | dir es =>
    cases p with
    | nil => exact hwf
    | cons n q =>
      cases q with
      | nil =>
        rw [removeAt, wfT]
        rw [wfT] at hwf
        exact wfL_removeE es n hwf
      | cons a b =>
        rw [removeAt, wfT]
        rw [wfT] at hwf
        exact wfL_updateE _ es n hwf
          (fun e he => wfT_removeAt e (a :: b)
            (wfL_mem_wfT es n e hwf (findE_mem es n e he)))
theorem wfL_removeE (es : List (String × MTree)) (n : String) (hwf : wfL es = true) :
    wfL (removeE es n) = true := by
  cases es with
  | nil => rfl
  | cons ke r =>
    obtain ⟨k, e⟩ := ke
    rw [wfL, Bool.and_eq_true, Bool.and_eq_true] at hwf
    by_cases hk : k = n
    · subst hk
      rw [removeE, if_pos rfl]
      exact hwf.2
    · rw [removeE, if_neg hk, wfL, Bool.and_eq_true, Bool.and_eq_true]
      refine ⟨⟨?_, hwf.1.2⟩, wfL_removeE r n hwf.2⟩
      have : ∀ (l : List (String × MTree)) (m : String), (findE l m).isNone = true →
          (findE (removeE l n) m).isNone = true := by
        intro l
        induction l with
        | nil => intro m h; exact h
        | cons ke2 r2 ih2 =>
          obtain ⟨k2, e2⟩ := ke2
          intro m h
          by_cases hk2 : k2 = n
          · subst hk2
            rw [removeE, if_pos rfl]
            rw [findE] at h
            by_cases hm : k2 = m
            · subst hm
              simp at h
            · rw [if_neg hm] at h
              exact h
          · rw [removeE, if_neg hk2]
            rw [findE] at h ⊢
            by_cases hm : k2 = m
            · rw [if_pos hm] at h
              simp at h
            · rw [if_neg hm] at h ⊢
              exact ih2 m h
      exact this r k hwf.1.1
end

theorem wfT_delSrc (t : MTree) (p : List String) (hwf : wfT t = true) :
    wfT (delSrc t p) = true := by
  unfold delSrc
  by_cases hemp : emptyDirAt t p = true
  · rw [hemp, if_pos rfl]
    exact wfT_removeAt t p hwf
  · rw [Bool.not_eq_true] at hemp
    rw [hemp]
    simp only [Bool.false_eq_true, if_false]
    exact hwf

/-! ### Lemmas: pruning characterization -/

mutual
theorem pruneT_emptyDir_iff (t : MTree) :
    isEmptyDirT (pruneT t) = true ↔ (isDirT t = true ∧ hasFileBelow t = false) := by
  cases t with
  | file c =>
    rw [pruneT]
    simp [isEmptyDirT, isDirT]
  | dir es =>
    rw [pruneT]
    have h1 : isEmptyDirT (.dir (pruneL es)) = true ↔ pruneL es = [] := by
      cases hp : pruneL es <;> simp [isEmptyDirT]
    rw [h1, pruneL_nil_iff es]
    simp [isDirT, hasFileBelow]
theorem pruneL_nil_iff (es : List (String × MTree)) :
    pruneL es = [] ↔ hasFileBelowL es = false := by
  cases es with
  | nil => simp [pruneL, hasFileBelowL]
  | cons ke r =>
    obtain ⟨k, e⟩ := ke
    cases e with
    | file c =>
      rw [pruneL]
      simp [hasFileBelowL, hasFileBelow]
    | dir cs =>
      rw [pruneL]
      by_cases hemp : isEmptyDirT (pruneT (.dir cs)) = true
      · rw [if_pos hemp, pruneL_nil_iff r]
        have := (pruneT_emptyDir_iff (.dir cs)).mp hemp
        simp [hasFileBelowL, this.2]
      · rw [if_neg hemp]
        have h2 : hasFileBelow (.dir cs) = true := by
          cases hf : hasFileBelow (.dir cs) with
          | true => rfl
          | false => exact absurd ((pruneT_emptyDir_iff (.dir cs)).mpr ⟨rfl, hf⟩) hemp
        simp [hasFileBelowL, h2]
end

mutual
theorem wfT_pruneT (t : MTree) (hwf : wfT t = true) : wfT (pruneT t) = true := by
  cases t with
  | file c => exact hwf
  | dir es =>
    rw [pruneT, wfT]
    rw [wfT] at hwf
    exact wfL_pruneL es hwf
theorem wfL_pruneL (es : List (String × MTree)) (hwf : wfL es = true) :
    wfL (pruneL es) = true := by
  cases es with
  | nil => rfl
  | cons ke r =>
    obtain ⟨k, e⟩ := ke
    rw [wfL, Bool.and_eq_true, Bool.and_eq_true] at hwf
    have hnone : ∀ (l : List (String × MTree)) (m : String), (findE l m).isNone = true →
        (findE (pruneL l) m).isNone = true := by
      intro l
      induction l with
      | nil => intro m h; exact h
      | cons ke2 r2 ih2 =>
        obtain ⟨k2, e2⟩ := ke2
        intro m h
        rw [findE] at h
        by_cases hm : k2 = m
        · rw [if_pos hm] at h
          simp at h
        · rw [if_neg hm] at h
          cases e2 with
          | file c2 =>
            rw [pruneL, findE, if_neg hm]
            exact ih2 m h
          | dir cs2 =>
            rw [pruneL]
            by_cases hemp : isEmptyDirT (pruneT (.dir cs2)) = true
            · rw [if_pos hemp]
              exact ih2 m h
            · rw [if_neg hemp, findE, if_neg hm]
              exact ih2 m h
    cases e with
    | file c =>
      rw [pruneL, wfL, Bool.and_eq_true, Bool.and_eq_true]
      exact ⟨⟨hnone r k hwf.1.1, rfl⟩, wfL_pruneL r hwf.2⟩
    | dir cs =>
      rw [pruneL]
      by_cases hemp : isEmptyDirT (pruneT (.dir cs)) = true
      · rw [if_pos hemp]
        exact wfL_pruneL r hwf.2
      · rw [if_neg hemp, wfL, Bool.and_eq_true, Bool.and_eq_true]
        exact ⟨⟨hnone r k hwf.1.1, wfT_pruneT (.dir cs) hwf.1.2⟩, wfL_pruneL r hwf.2⟩
end

theorem pruneL_as_filter (es : List (String × MTree)) :
    pruneL es = (es.map (fun ne => (ne.1, pruneT ne.2))).filter
      (fun ne => !isEmptyDirT ne.2) := by
  induction es with
  | nil => rfl
  | cons ke r ih =>
    obtain ⟨k, e⟩ := ke
    cases e with
    | file c =>
      rw [pruneL, List.map_cons, List.filter_cons]
      have : (!isEmptyDirT ((k, pruneT (.file c)) : String × MTree).2) = true := by
        rw [pruneT]
        rfl
      rw [if_pos this, ih]
      rfl
    | dir cs =>
      rw [pruneL, List.map_cons, List.filter_cons]
      by_cases hemp : isEmptyDirT (pruneT (.dir cs)) = true
      · rw [if_pos hemp]
        have : (!isEmptyDirT ((k, pruneT (.dir cs)) : String × MTree).2) = false := by
          simp [hemp]
        rw [this]
        simp only [Bool.false_eq_true, if_false]
        exact ih
      · rw [if_neg hemp]
        have : (!isEmptyDirT ((k, pruneT (.dir cs)) : String × MTree).2) = true := by
          simp [Bool.not_eq_true] at hemp
          simp [hemp]
        rw [if_pos this, ih]

theorem hasFileBelow_findE (es : List (String × MTree)) (n : String) (e : MTree)
    (h : findE es n = some e) (hf : hasFileBelow e = true) :
    hasFileBelowL es = true := by
  induction es with
  | nil => cases h
  | cons ke r ih =>
    obtain ⟨k, e0⟩ := ke
    rw [findE] at h
    by_cases hk : k = n
    · rw [if_pos hk] at h
      cases h
      simp [hasFileBelowL, hf]
    · rw [if_neg hk] at h
      simp [hasFileBelowL, ih h]

theorem hasFileBelow_mono (p : List String) :
    ∀ (t e : MTree), lookupPath t p = some e → hasFileBelow e = true →
    hasFileBelow t = true := by
  induction p with
  | nil =>
    intro t e h hf
    cases t <;> (cases h; exact hf)
  | cons n q ih =>
    intro t e h hf
    cases t with
    | file c => cases h
    | dir es =>
      rw [lookupPath] at h
      cases hfe : findE es n with
      | none => rw [hfe] at h; cases h
      | some e1 =>
        rw [hfe] at h
        have := ih e1 e h hf
        rw [hasFileBelow]
        exact hasFileBelow_findE es n e1 hfe this

theorem findE_pruneL (es : List (String × MTree)) (n : String) (e : MTree)
    (hwf : wfL es = true) (h : findE es n = some e) :
    findE (pruneL es) n =
      (if hasFileBelow e = true then some (pruneT e) else none) := by
  induction es with
  | nil => cases h
  | cons ke r ih =>
    obtain ⟨k, e0⟩ := ke
    rw [wfL, Bool.and_eq_true, Bool.and_eq_true] at hwf
    rw [findE] at h
    by_cases hk : k = n
    · rw [if_pos hk] at h
      cases h
      subst hk
      cases e with
      | file c =>
        rw [pruneL, findE, if_pos rfl]
        simp [hasFileBelow, pruneT]
      | dir cs =>
        rw [pruneL]
        by_cases hemp : isEmptyDirT (pruneT (.dir cs)) = true
        · have hfb := (pruneT_emptyDir_iff (.dir cs)).mp hemp
          rw [if_pos hemp, hfb.2]
          simp only [Bool.false_eq_true, if_false]
          have : (findE (pruneL r) k).isNone = true := by
            have hnone : ∀ (l : List (String × MTree)) (m : String),
                (findE l m).isNone = true → (findE (pruneL l) m).isNone = true := by
              intro l
              induction l with
              | nil => intro m hm; exact hm
              | cons ke2 r2 ih2 =>
                obtain ⟨k2, e2⟩ := ke2
                intro m hm
                rw [findE] at hm
                by_cases hm2 : k2 = m
                · rw [if_pos hm2] at hm
                  simp at hm
                · rw [if_neg hm2] at hm
                  cases e2 with
                  | file c2 =>
                    rw [pruneL, findE, if_neg hm2]
                    exact ih2 m hm
                  | dir cs2 =>
                    rw [pruneL]
                    by_cases hemp2 : isEmptyDirT (pruneT (.dir cs2)) = true
                    · rw [if_pos hemp2]
                      exact ih2 m hm
                    · rw [if_neg hemp2, findE, if_neg hm2]
                      exact ih2 m hm
            exact hnone r k hwf.1.1
          rw [Option.isNone_iff_eq_none] at this
          exact this
        · rw [if_neg hemp, findE, if_pos rfl]
          have h2 : hasFileBelow (.dir cs) = true := by
            cases hf : hasFileBelow (.dir cs) with
            | true => rfl
            | false => exact absurd ((pruneT_emptyDir_iff (.dir cs)).mpr ⟨rfl, hf⟩) hemp
          rw [h2]
          rfl
    · rw [if_neg hk] at h
      cases e0 with
      | file c =>
        rw [pruneL, findE, if_neg hk]
        exact ih hwf.2 h
      | dir cs =>
        rw [pruneL]
        by_cases hemp : isEmptyDirT (pruneT (.dir cs)) = true
        · rw [if_pos hemp]
          exact ih hwf.2 h
        · rw [if_neg hemp, findE, if_neg hk]
          exact ih hwf.2 h

theorem pruneT_lookup_live (p : List String) :
    ∀ (t e : MTree), wfT t = true → lookupPath t p = some e → hasFileBelow e = true →
    lookupPath (pruneT t) p = some (pruneT e) := by
  induction p with
  | nil =>
    intro t e _ h _
    cases t <;> (cases h; rfl)
  | cons n q ih =>
    intro t e hwf h hf
    cases t with
    | file c => cases h
    | dir es =>
      rw [lookupPath] at h
      cases hfe : findE es n with
      | none => rw [hfe] at h; cases h
      | some e1 =>
        rw [hfe] at h
        rw [wfT] at hwf
        have he1f : hasFileBelow e1 = true := hasFileBelow_mono q e1 e h hf
        rw [pruneT, lookupPath, findE_pruneL es n e1 hwf hfe, he1f, if_pos rfl]
        exact ih e1 e (wfL_mem_wfT es n e1 hwf (findE_mem es n e1 hfe)) h hf

theorem pruneT_lookup_dead (p : List String) :
    ∀ (t e : MTree), wfT t = true → p ≠ [] → lookupPath t p = some e →
    isDirT e = true → hasFileBelow e = false →
    lookupPath (pruneT t) p = none := by
  induction p with
  | nil =>
    intro t e _ hne _ _ _
    exact absurd rfl hne
  | cons n q ih =>
    intro t e hwf _ h hdir hf
    cases t with
    | file c => cases h
    | dir es =>
      rw [lookupPath] at h
      cases hfe : findE es n with
      | none => rw [hfe] at h; cases h
      | some e1 =>
        rw [hfe] at h
        rw [wfT] at hwf
        rw [pruneT, lookupPath, findE_pruneL es n e1 hwf hfe]
        cases hf1 : hasFileBelow e1 with
        | false =>
          simp only [Bool.false_eq_true, if_false]
        | true =>
          rw [if_pos rfl]
          cases q with
          | nil =>
            cases e1 <;> (cases h; rw [hf1] at hf; cases hf)
          | cons a b =>
            exact ih e1 e (wfL_mem_wfT es n e1 hwf (findE_mem es n e1 hfe))
              (by simp) h hdir hf

/-! ### Lemmas: delete-pass step structure -/

theorem removeAt_nil (t : MTree) : removeAt t [] = t := by
  cases t <;> rfl

theorem delSrc_nil (t : MTree) : delSrc t [] = t := by
  unfold delSrc
  by_cases h : emptyDirAt t [] = true
  · rw [if_pos h]
    exact removeAt_nil t
  · rw [Bool.not_eq_true] at h
    rw [h]
    simp

theorem emptyDirAt_file (c : Nat) (p : List String) :
    emptyDirAt (.file c) p = false := by
  cases p <;> rfl

theorem delSrc_file (c : Nat) (p : List String) : delSrc (.file c) p = .file c := by
  unfold delSrc
  rw [emptyDirAt_file]
  simp

theorem foldl_delSrc_file (c : Nat) :
    ∀ L : List (List String), L.foldl delSrc (.file c) = .file c := by
  intro L
  induction L with
  | nil => rfl
  | cons p rest ih => rw [List.foldl_cons, delSrc_file, ih]

theorem emptyDirAt_cons (es : List (String × MTree)) (n : String) (q : List String) :
    emptyDirAt (.dir es) (n :: q) =
      (match findE es n with
       | some e => emptyDirAt e q
       | none => false) := by
  unfold emptyDirAt
  rw [lookupPath]
  cases findE es n <;> rfl

theorem emptyDirAt_nil (t : MTree) : emptyDirAt t [] = isEmptyDirT t := by
  cases t with
  | file c => rfl
  | dir es => cases es <;> rfl

theorem delSrc_cons (es : List (String × MTree)) (n : String) (q : List String)
    (hq : q ≠ []) :
    delSrc (.dir es) (n :: q) = .dir (updateE (fun e => delSrc e q) es n) := by
  have hlhs : delSrc (.dir es) (n :: q) =
      (if (match findE es n with | some e => emptyDirAt e q | none => false) = true
       then removeAt (.dir es) (n :: q) else .dir es) := by
    unfold delSrc
    rw [emptyDirAt_cons]
  rw [hlhs]
  cases hfe : findE es n with
  | none =>
    dsimp only
    simp only [Bool.false_eq_true, if_false]
    rw [updateE_absent _ es n hfe]
  | some e =>
    dsimp only
    cases hemp : emptyDirAt e q with
    | true =>
      rw [if_pos rfl]
      cases q with
      | nil => exact absurd rfl hq
      | cons a b =>
        rw [show removeAt (.dir es) (n :: a :: b) =
            .dir (updateE (fun e2 => removeAt e2 (a :: b)) es n) from rfl]
        congr 1
        apply updateE_congr _ _ es n e hfe
        show removeAt e (a :: b) = delSrc e (a :: b)
        unfold delSrc
        rw [hemp, if_pos rfl]
    | false =>
      simp only [Bool.false_eq_true, if_false]
      rw [updateE_self (fun e2 => delSrc e2 q) es n e hfe
        (by show delSrc e q = e
            unfold delSrc
            rw [hemp]
            simp)]

theorem findE_isNone_not_name (es : List (String × MTree)) (m : String)
    (h : (findE es m).isNone = true) : ∀ ne ∈ es, ne.1 ≠ m := by
  intro ne hne he
  obtain ⟨n0, e0⟩ := ne
  simp only at he
  subst he
  have := findE_isSome_of_mem es n0 e0 hne
  rw [Option.isNone_iff_eq_none] at h
  rw [h] at this
  cases this

theorem updateE_map (f : MTree → MTree) (g : String → MTree → MTree)
    (es : List (String × MTree)) (m : String) (hwf : wfL es = true) :
    (updateE f es m).map (fun ne => (ne.1, g ne.1 ne.2)) =
      es.map (fun ne => (ne.1, if ne.1 = m then g ne.1 (f ne.2) else g ne.1 ne.2)) := by
  induction es with
  | nil => rfl
  | cons ke r ih =>
    obtain ⟨k, e⟩ := ke
    rw [wfL, Bool.and_eq_true, Bool.and_eq_true] at hwf
    by_cases hk : k = m
    · subst hk
      rw [updateE, if_pos rfl, List.map_cons, List.map_cons]
      simp only [if_pos rfl]
      congr 1
      apply List.map_congr_left
      intro ne hne
      have hne2 : ne.1 ≠ k := findE_isNone_not_name r k hwf.1.1 ne hne
      rw [if_neg hne2]
    · rw [updateE, if_neg hk, List.map_cons, List.map_cons]
      simp only [if_neg hk]
      congr 1
      exact ih hwf.2

theorem projL_cons (n m : String) (q : List String) (rest : List (List String)) :
    projL n ((m :: q) :: rest) =
      (if m = n then q :: projL n rest else projL n rest) := by
  by_cases h : m = n <;> simp [projL, List.filterMap_cons, h]

theorem projL_nil_cons (n : String) (rest : List (List String)) :
    projL n ([] :: rest) = projL n rest := by
  simp [projL, List.filterMap_cons]

theorem foldl_delSrc_children :
    ∀ (L : List (List String)) (es : List (String × MTree)),
    wfL es = true → (∀ p ∈ L, 2 ≤ p.length) →
    L.foldl delSrc (.dir es) =
      .dir (es.map (fun ne => (ne.1, (projL ne.1 L).foldl delSrc ne.2))) := by
  intro L
  induction L with
  | nil =>
    intro es _ _
    rw [List.foldl_nil]
    congr 1
    have : (fun (ne : String × MTree) => (ne.1, (projL ne.1 []).foldl delSrc ne.2)) =
        fun ne => ne := by
      funext ne
      rfl
    rw [this]
    exact (List.map_id' es).symm
  | cons p rest ih =>
    intro es hwf hlen
    obtain ⟨m, q, hq, hp⟩ : ∃ m q, q ≠ [] ∧ p = m :: q := by
      have hl := hlen p (List.mem_cons_self ..)
      cases p with
      | nil => simp at hl
      | cons m q =>
        cases q with
        | nil => simp at hl
        | cons a b => exact ⟨m, a :: b, by simp, rfl⟩
    subst hp
    rw [List.foldl_cons, delSrc_cons es m q hq]
    rw [ih (updateE (fun e => delSrc e q) es m)
      (wfL_updateE _ es m hwf
        (fun e he => wfT_delSrc e q (wfL_mem_wfT es m e hwf (findE_mem es m e he))))
      (fun p2 h2 => hlen p2 (List.mem_cons_of_mem _ h2))]
    rw [updateE_map (fun e => delSrc e q)
      (fun n e => (projL n rest).foldl delSrc e) es m hwf]
    congr 1
    apply List.map_congr_left
    intro ne _
    by_cases hne : ne.1 = m
    · rw [if_pos hne, projL_cons]
      rw [if_pos hne.symm]
      rw [List.foldl_cons]
    · rw [if_neg hne, projL_cons]
      rw [if_neg (fun he => hne he.symm)]

theorem removeE_subset (es : List (String × MTree)) (m : String) :
    ∀ ne ∈ removeE es m, ne ∈ es := by
  induction es with
  | nil => intro ne h; cases h
  | cons ke r ih =>
    obtain ⟨k, e⟩ := ke
    intro ne h
    by_cases hk : k = m
    · rw [removeE, if_pos hk] at h
      exact List.mem_cons_of_mem _ h
    · rw [removeE, if_neg hk] at h
      rcases List.mem_cons.mp h with h1 | h2
      · rw [h1]
        exact List.mem_cons_self ..
      · exact List.mem_cons_of_mem _ (ih ne h2)

theorem removeE_not_name (es : List (String × MTree)) (m : String)
    (hwf : wfL es = true) : ∀ ne ∈ removeE es m, ne.1 ≠ m := by
  induction es with
  | nil => intro ne h; cases h
  | cons ke r ih =>
    obtain ⟨k, e⟩ := ke
    rw [wfL, Bool.and_eq_true, Bool.and_eq_true] at hwf
    intro ne h
    by_cases hk : k = m
    · subst hk
      rw [removeE, if_pos rfl] at h
      exact findE_isNone_not_name r k hwf.1.1 ne h
    · rw [removeE, if_neg hk] at h
      rcases List.mem_cons.mp h with h1 | h2
      · rw [h1]
        exact hk
      · exact ih hwf.2 ne h2

theorem filter_removeE_empty (es : List (String × MTree)) (m : String) (e1 : MTree)
    (hwf : wfL es = true) (hfe : findE es m = some e1) (hemp : isEmptyDirT e1 = true) :
    (removeE es m).filter (fun ne => !isEmptyDirT ne.2) =
      es.filter (fun ne => !isEmptyDirT ne.2) := by
  induction es with
  | nil => cases hfe
  | cons ke r ih =>
    obtain ⟨k, e⟩ := ke
    rw [wfL, Bool.and_eq_true, Bool.and_eq_true] at hwf
    rw [findE] at hfe
    by_cases hk : k = m
    · rw [if_pos hk] at hfe
      cases hfe
      rw [removeE, if_pos hk, List.filter_cons]
      have : (!isEmptyDirT ((k, e1) : String × MTree).2) = false := by simp [hemp]
      rw [this]
      simp
    · rw [if_neg hk] at hfe
      rw [removeE, if_neg hk, List.filter_cons, List.filter_cons, ih hwf.2 hfe]

theorem foldl_delSrc_depth1 :
    ∀ (L1 : List (List String)) (es3 : List (String × MTree)),
    wfL es3 = true →
    (∀ p ∈ L1, p.length ≤ 1) →
    (∀ ne ∈ es3, isEmptyDirT ne.2 = true → [ne.1] ∈ L1) →
    L1.foldl delSrc (.dir es3) = .dir (es3.filter (fun ne => !isEmptyDirT ne.2)) := by
  intro L1
  induction L1 with
  | nil =>
    intro es3 _ _ hcov
    rw [List.foldl_nil]
    congr 1
    symm
    apply List.filter_eq_self.mpr
    intro ne hne
    cases hemp : isEmptyDirT ne.2 with
    | false => simp
    | true => exact absurd (hcov ne hne hemp) (by simp)
  | cons p rest ih =>
    intro es3 hwf hlen hcov
    rw [List.foldl_cons]
    cases p with
    | nil =>
      rw [delSrc_nil]
      apply ih es3 hwf (fun p2 h2 => hlen p2 (List.mem_cons_of_mem _ h2))
      intro ne hne hemp
      rcases List.mem_cons.mp (hcov ne hne hemp) with h1 | h2
      · cases h1
      · exact h2
    | cons m q =>
      have hq : q = [] := by
        have hl := hlen (m :: q) (List.mem_cons_self ..)
        cases q with
        | nil => rfl
        | cons a b => simp at hl
      subst hq
      cases hfe : findE es3 m with
      | none =>
        have hstep : delSrc (.dir es3) [m] = .dir es3 := by
          unfold delSrc
          rw [emptyDirAt_cons, hfe]
          simp
        rw [hstep]
        apply ih es3 hwf (fun p2 h2 => hlen p2 (List.mem_cons_of_mem _ h2))
        intro ne hne hemp
        rcases List.mem_cons.mp (hcov ne hne hemp) with h1 | h2
        · have hname : ne.1 = m := by cases h1; rfl
          have := findE_isSome_of_mem es3 ne.1 ne.2 (by
            have : ne = (ne.1, ne.2) := rfl
            rw [← this]
            exact hne)
          rw [hname, hfe] at this
          cases this
        · exact h2
      | some e1 =>
        cases hemp1 : isEmptyDirT e1 with
        | false =>
          have hstep : delSrc (.dir es3) [m] = .dir es3 := by
            unfold delSrc
            rw [emptyDirAt_cons, hfe]
            dsimp only
            rw [emptyDirAt_nil, hemp1]
            simp
          rw [hstep]
          apply ih es3 hwf (fun p2 h2 => hlen p2 (List.mem_cons_of_mem _ h2))
          intro ne hne hemp
          rcases List.mem_cons.mp (hcov ne hne hemp) with h1 | h2
          · have hname : ne.1 = m := by cases h1; rfl
            have hf2 : findE es3 ne.1 = some ne.2 := findE_of_mem_wf es3 ne.1 ne.2 hwf (by
              have : ne = (ne.1, ne.2) := rfl
              rw [← this]
              exact hne)
            rw [hname, hfe] at hf2
            cases hf2
            rw [hemp] at hemp1
            cases hemp1
          · exact h2
        | true =>
          have hstep : delSrc (.dir es3) [m] = .dir (removeE es3 m) := by
            unfold delSrc
            rw [emptyDirAt_cons, hfe]
            dsimp only
            rw [emptyDirAt_nil, hemp1]
            rw [if_pos rfl]
            rfl
          rw [hstep]
          rw [ih (removeE es3 m) (wfL_removeE es3 m hwf)
            (fun p2 h2 => hlen p2 (List.mem_cons_of_mem _ h2)) ?_]
          · congr 1
            exact filter_removeE_empty es3 m e1 hwf hfe hemp1
          · intro ne hne hemp
            have hname : ne.1 ≠ m := removeE_not_name es3 m hwf ne hne
            rcases List.mem_cons.mp
              (hcov ne (removeE_subset es3 m ne hne) hemp) with h1 | h2
            · exact absurd (by cases h1; rfl) hname
            · exact h2

theorem sorted_split (L : List (List String))
    (hs : L.Pairwise (fun a b => b.length ≤ a.length)) :
    ∃ L2 L1, L = L2 ++ L1 ∧ (∀ p ∈ L2, 2 ≤ p.length) ∧ (∀ p ∈ L1, p.length ≤ 1) := by
  induction L with
  | nil => exact ⟨[], [], rfl, by simp, by simp⟩
  | cons a rest ih =>
    obtain ⟨hhd, htl⟩ := List.pairwise_cons.mp hs
    obtain ⟨L2, L1, heq, h2, h1⟩ := ih htl
    by_cases ha : 2 ≤ a.length
    · refine ⟨a :: L2, L1, by rw [heq]; rfl, ?_, h1⟩
      intro p hp
      rcases List.mem_cons.mp hp with h | h
      · rw [h]
        exact ha
      · exact h2 p h
    · refine ⟨[], a :: rest, rfl, by simp, ?_⟩
      intro p hp
      rcases List.mem_cons.mp hp with h | h
      · rw [h]
        omega
      · have := hhd p h
        omega

theorem sizeT_pos (t : MTree) : 1 ≤ sizeT t := by
  cases t with
  | file c => rw [sizeT]
  | dir es => rw [sizeT]; omega

theorem sizeL_mem (es : List (String × MTree)) (n : String) (e : MTree)
    (h : (n, e) ∈ es) : sizeT e ≤ sizeL es := by
  induction es with
  | nil => cases h
  | cons ke r ih =>
    obtain ⟨k, e0⟩ := ke
    rw [sizeL]
    rcases List.mem_cons.mp h with h1 | h2
    · cases h1
      omega
    · have := ih h2
      omega

theorem pairwise_projL (n : String) (L : List (List String))
    (h : L.Pairwise (fun a b => b.length ≤ a.length)) :
    (projL n L).Pairwise (fun a b => b.length ≤ a.length) := by
  induction L with
  | nil => constructor
  | cons p rest ih =>
    obtain ⟨hhd, htl⟩ := List.pairwise_cons.mp h
    unfold projL
    rw [List.filterMap_cons]
    cases p with
    | nil => exact ih htl
    | cons m q =>
      dsimp only
      by_cases hm : m = n
      · rw [if_pos hm]
        refine List.pairwise_cons.mpr ⟨?_, ih htl⟩
        intro b hb
        obtain ⟨p2, hp2, hf2⟩ := List.mem_filterMap.mp hb
        cases p2 with
        | nil => cases hf2
        | cons m2 q2 =>
          dsimp only at hf2
          by_cases hm2 : m2 = n
          · rw [if_pos hm2] at hf2
            cases hf2
            have := hhd (m2 :: b) hp2
            simp only [List.length_cons] at this ⊢
            omega
          · rw [if_neg hm2] at hf2
            cases hf2
      · rw [if_neg hm]
        exact ih htl

theorem projL_mem (n : String) (q : List String) (L : List (List String))
    (h : (n :: q) ∈ L) : q ∈ projL n L :=
  List.mem_filterMap.mpr ⟨n :: q, h, by simp⟩

theorem deadAt_ne_nil (t : MTree) (p : List String) (h : deadAt t p = true) :
    p ≠ [] := by
  intro he
  subst he
  unfold deadAt at h
  simp at h

theorem deadAt_lookup (t : MTree) (p : List String) (h : deadAt t p = true) :
    ∃ es2, lookupPath t p = some (.dir es2) ∧ hasFileBelow (.dir es2) = false := by
  unfold deadAt at h
  rw [Bool.and_eq_true] at h
  rcases hl : lookupPath t p with _ | e
  · rw [hl] at h
    cases h.2
  · rw [hl] at h
    cases e with
    | file c => cases h.2
    | dir es2 =>
      refine ⟨es2, rfl, ?_⟩
      have := h.2
      simp at this
      exact this

theorem deadAt_lift (es : List (String × MTree)) (n : String) (e : MTree)
    (q : List String) (hwf : wfL es = true) (hmem : (n, e) ∈ es)
    (hd : deadAt e q = true) : deadAt (.dir es) (n :: q) = true := by
  obtain ⟨es2, hl, hf⟩ := deadAt_lookup e q hd
  unfold deadAt
  rw [Bool.and_eq_true]
  refine ⟨by simp, ?_⟩
  rw [lookupPath, findE_of_mem_wf es n e hwf hmem]
  dsimp only
  rw [hl]
  dsimp only
  rw [hf]
  rfl

theorem findE_map_pruneT (es : List (String × MTree)) (n : String) :
    findE (es.map (fun ne => (ne.1, pruneT ne.2))) n = (findE es n).map pruneT := by
  induction es with
  | nil => rfl
  | cons ke r ih =>
    obtain ⟨k, e⟩ := ke
    by_cases hk : k = n <;> simp [findE, hk, ih]

theorem wfL_map_pruneT (es : List (String × MTree)) (hwf : wfL es = true) :
    wfL (es.map (fun ne => (ne.1, pruneT ne.2))) = true := by
  induction es with
  | nil => rfl
  | cons ke r ih =>
    obtain ⟨k, e⟩ := ke
    rw [wfL, Bool.and_eq_true, Bool.and_eq_true] at hwf
    rw [List.map_cons, wfL, Bool.and_eq_true, Bool.and_eq_true]
    refine ⟨⟨?_, wfT_pruneT e hwf.1.2⟩, ih hwf.2⟩
    rw [findE_map_pruneT]
    cases hfk : findE r k with
    | none => rfl
    | some e2 =>
      rw [hfk] at hwf
      cases hwf.1.1

theorem foldl_delSrc_prune :
    ∀ (k : Nat) (t : MTree), sizeT t ≤ k → wfT t = true →
    ∀ L : List (List String), L.Pairwise (fun a b => b.length ≤ a.length) →
    (∀ p, deadAt t p = true → p ∈ L) →
    L.foldl delSrc t = pruneT t := by
  intro k
  induction k with
  | zero =>
    intro t hsz
    have := sizeT_pos t
    omega
  | succ k ih =>
    intro t hsz hwf L hsort hcov
    cases t with
    | file c =>
      rw [foldl_delSrc_file, pruneT]
    | dir es =>
      obtain ⟨L2, L1, heq, h2len, h1len⟩ := sorted_split L hsort
      subst heq
      rw [List.foldl_append]
      rw [foldl_delSrc_children L2 es (by rw [wfT] at hwf; exact hwf) h2len]
      have hmap : es.map (fun ne => (ne.1, (projL ne.1 L2).foldl delSrc ne.2)) =
          es.map (fun ne => (ne.1, pruneT ne.2)) := by
        apply List.map_congr_left
        intro ne hne
        have hmem : (ne.1, ne.2) ∈ es := by
          have : ne = (ne.1, ne.2) := rfl
          rw [← this]
          exact hne
        have hwfl : wfL es = true := by rw [wfT] at hwf; exact hwf
        congr 1
        apply ih ne.2 ?_ (wfL_mem_wfT es ne.1 ne.2 hwfl hmem) (projL ne.1 L2)
          (pairwise_projL ne.1 L2 (List.pairwise_append.mp hsort).1) ?_
        · have h1 := sizeL_mem es ne.1 ne.2 hmem
          rw [sizeT] at hsz
          omega
        · intro q hq
          have hlift := deadAt_lift es ne.1 ne.2 q hwfl hmem hq
          have hin := hcov (ne.1 :: q) hlift
          rcases List.mem_append.mp hin with h1 | h1
          · exact projL_mem ne.1 q L2 h1
          · have hlen := h1len (ne.1 :: q) h1
            have hqne := deadAt_ne_nil ne.2 q hq
            cases q with
            | nil => exact absurd rfl hqne
            | cons a b => simp at hlen
      rw [hmap]
      rw [foldl_delSrc_depth1 L1 (es.map (fun ne => (ne.1, pruneT ne.2)))
        (wfL_map_pruneT es (by rw [wfT] at hwf; exact hwf)) h1len ?_]
      · rw [pruneT]
        congr 1
        exact (pruneL_as_filter es).symm
      · intro ne3 hne3 hemp3
        obtain ⟨ne, hne, hne3e⟩ := List.mem_map.mp hne3
        have hwfl : wfL es = true := by rw [wfT] at hwf; exact hwf
        have hmem : (ne.1, ne.2) ∈ es := by
          have : ne = (ne.1, ne.2) := rfl
          rw [← this]
          exact hne
        rw [← hne3e] at hemp3
        simp only at hemp3
        have hchar := (pruneT_emptyDir_iff ne.2).mp hemp3
        have hdead : deadAt (.dir es) [ne.1] = true := by
          unfold deadAt
          rw [Bool.and_eq_true]
          refine ⟨by simp, ?_⟩
          rw [lookupPath, findE_of_mem_wf es ne.1 ne.2 hwfl hmem]
          cases hne2 : ne.2 with
          | file c2 =>
            rw [hne2] at hchar
            rw [isDirT] at hchar
            cases hchar.1
          | dir cs2 =>
            dsimp only
            rw [show lookupPath (MTree.dir cs2) [] = some (.dir cs2) from rfl]
            dsimp only
            rw [hne2] at hchar
            rw [hchar.2]
            rfl
        have hin := hcov [ne.1] hdead
        rcases List.mem_append.mp hin with h1 | h1
        · have := h2len [ne.1] h1
          simp at this
        · rw [← hne3e]
          exact h1

theorem lookupPath_nil (t : MTree) : lookupPath t [] = some t := by
  cases t <;> rfl

theorem rglobL_mem_head (q : List String) (es : List (String × MTree))
    (n : String) (e : MTree) (hmem : (n, e) ∈ es) :
    (q ++ [n], isDirT e) ∈ rglobL q es := by
  induction es with
  | nil => cases hmem
  | cons ke r ih =>
    obtain ⟨k, e0⟩ := ke
    rw [rglobL]
    rcases List.mem_cons.mp hmem with h1 | h2
    · cases h1
      exact List.mem_cons_self ..
    · exact List.mem_cons_of_mem _ (List.mem_append.mpr (Or.inr (ih h2)))

theorem rglobL_mem_sub (q : List String) (es : List (String × MTree))
    (n : String) (e : MTree) (hmem : (n, e) ∈ es) (x : List String × Bool)
    (hx : x ∈ rglobT (q ++ [n]) e) : x ∈ rglobL q es := by
  induction es with
  | nil => cases hmem
  | cons ke r ih =>
    obtain ⟨k, e0⟩ := ke
    rw [rglobL]
    rcases List.mem_cons.mp hmem with h1 | h2
    · cases h1
      exact List.mem_cons_of_mem _ (List.mem_append.mpr (Or.inl hx))
    · exact List.mem_cons_of_mem _ (List.mem_append.mpr (Or.inr (ih h2)))

theorem rglob_complete (p : List String) :
    ∀ (t e : MTree) (q : List String), wfT t = true → lookupPath t p = some e →
    p ≠ [] → (q ++ p, isDirT e) ∈ rglobT q t := by
  induction p with
  | nil =>
    intro t e q _ _ hne
    exact absurd rfl hne
  | cons n p2 ih =>
    intro t e q hwf h _
    cases t with
    | file c => cases h
    | dir es =>
      rw [lookupPath] at h
      cases hfe : findE es n with
      | none =>
        rw [hfe] at h
        cases h
      | some e1 =>
        rw [hfe] at h
        have hmem := findE_mem es n e1 hfe
        rw [rglobT]
        cases p2 with
        | nil =>
          dsimp only at h
          rw [lookupPath_nil] at h
          cases h
          exact rglobL_mem_head q es n e hmem
        | cons a b =>
          rw [wfT] at hwf
          have hsub := ih e1 e (q ++ [n])
            (wfL_mem_wfT es n e1 hwf hmem) h (by simp)
          have hres := rglobL_mem_sub q es n e1 hmem _ hsub
          rw [List.append_assoc] at hres
          exact hres

theorem insDesc_perm (a : List String × Bool) (l : List (List String × Bool)) :
    List.Perm (insDesc a l) (a :: l) := by
  induction l with
  | nil => exact List.Perm.refl _
  | cons b r ih =>
    unfold insDesc
    by_cases h : b.1.length ≤ a.1.length
    · rw [if_pos h]
    · rw [if_neg h]
      exact List.Perm.trans (List.Perm.cons b ih) (List.Perm.swap a b r)

theorem sortDesc_perm (l : List (List String × Bool)) : List.Perm (sortDesc l) l := by
  induction l with
  | nil => exact List.Perm.refl _
  | cons a r ih =>
    rw [sortDesc]
    exact List.Perm.trans (insDesc_perm a (sortDesc r)) (List.Perm.cons a ih)

theorem insDesc_sorted (a : List String × Bool) (l : List (List String × Bool))
    (h : l.Pairwise (fun x y => y.1.length ≤ x.1.length)) :
    (insDesc a l).Pairwise (fun x y => y.1.length ≤ x.1.length) := by
  induction l with
  | nil => simp [insDesc]
  | cons b r ih =>
    obtain ⟨hb, hr⟩ := List.pairwise_cons.mp h
    unfold insDesc
    by_cases hle : b.1.length ≤ a.1.length
    · rw [if_pos hle]
      refine List.pairwise_cons.mpr ⟨?_, h⟩
      intro c hc
      rcases List.mem_cons.mp hc with h1 | h2
      · rw [h1]
        exact hle
      · have := hb c h2
        omega
    · rw [if_neg hle]
      refine List.pairwise_cons.mpr ⟨?_, ih hr⟩
      intro c hc
      rcases List.mem_cons.mp ((mem_insDesc a c r).mp hc) with h1 | h2
      · rw [h1]
        omega
      · exact hb c h2

theorem sortDesc_sorted (l : List (List String × Bool)) :
    (sortDesc l).Pairwise (fun x y => y.1.length ≤ x.1.length) := by
  induction l with
  | nil => constructor
  | cons a r ih =>
    rw [sortDesc]
    exact insDesc_sorted a (sortDesc r) ih

theorem delStep_real_src (st : MState) (it : List String × Bool) :
    (delStep false st it).src = delSrc st.src it.1 := by
  unfold delStep delSrc
  by_cases h : emptyDirAt st.src it.1 = true
  · rw [h]
    simp
  · rw [Bool.not_eq_true] at h
    rw [h]
    simp

theorem foldl_delStep_real_src :
    ∀ (L : List (List String × Bool)) (st : MState),
    (L.foldl (delStep false) st).src = (L.map Prod.fst).foldl delSrc st.src := by
  intro L
  induction L with
  | nil => intro st; rfl
  | cons it rest ih =>
    intro st
    rw [List.foldl_cons, List.map_cons, List.foldl_cons, ih, delStep_real_src]

/-- C5. Delete pass of the merge: the enumeration it folds over is sorted
by nonincreasing path depth and is a permutation of the `rglob` listing of
the live source; the resulting source tree is exactly the recursive prune
of the input (every directory whose subtree holds no file is removed —
including directories that become empty only because their children were
deleted earlier in the same deepest-first pass — and every directory that
still has an entry left is retained); concretely, a strict-descendant
directory survives the pass if and only if some regular file remains below
it. -/
theorem delete_pass_prune (st : MState) (hwf : wfT st.src = true) :
    (sortDesc (rglobT [] st.src)).Pairwise (fun a b => b.1.length ≤ a.1.length)
    ∧ List.Perm (sortDesc (rglobT [] st.src)) (rglobT [] st.src)
    ∧ (deletePass false st).src = pruneT st.src
    ∧ ∀ p e, lookupPath st.src p = some e → p ≠ [] → isDirT e = true →
        (lookupPath ((deletePass false st).src) p = none ↔ hasFileBelow e = false) := by
  have hmain : (deletePass false st).src = pruneT st.src := by
    unfold deletePass
    rw [foldl_delStep_real_src]
    apply foldl_delSrc_prune (sizeT st.src) st.src (le_refl _) hwf
    · exact List.pairwise_map.mpr (sortDesc_sorted (rglobT [] st.src))
    · intro p hd
      obtain ⟨es2, hl, _⟩ := deadAt_lookup st.src p hd
      have hne := deadAt_ne_nil st.src p hd
      have hc := rglob_complete p st.src (.dir es2) [] hwf hl hne
      have hmem : (p, true) ∈ rglobT [] st.src := by simpa using hc
      exact List.mem_map.mpr ⟨(p, true), (mem_sortDesc _ _).mpr hmem, rfl⟩
  refine ⟨sortDesc_sorted _, sortDesc_perm _, hmain, ?_⟩
  intro p e hl hne hdir
  rw [hmain]
  constructor
  · intro hnone
    cases hf : hasFileBelow e with
    | false => rfl
    | true =>
      have := pruneT_lookup_live p st.src e hwf hl hf
      rw [this] at hnone
      cases hnone
  · intro hf
    exact pruneT_lookup_dead p st.src e hwf hne hl hdir hf

/-- C5 witness: on a concrete source with a nested empty directory chain
and one file, the delete pass removes the whole empty chain (including the
parent emptied only by its child's deletion) and keeps the file's side. -/
theorem delete_pass_prune_witness :
    (deletePass false
      ⟨.dir [("a", .dir [("b", .dir [])]), ("c", .file 1)], none, []⟩).src =
      pruneT (.dir [("a", .dir [("b", .dir [])]), ("c", .file 1)]) :=
  (delete_pass_prune
    ⟨.dir [("a", .dir [("b", .dir [])]), ("c", .file 1)], none, []⟩ rfl).2.2.1

end Dircomp
